import Mathlib

/-!
# Crane unloading: the exhaustive and the dynamic-programming solver

A shallow embedding of `cranes_algs.hpp` (`crane_unloading_exhaustive` and
`crane_unloading_dyn_prog`) and the properties of the two solvers.

Conventions of the embedding.

* `size_t` and `int` values are `Nat` and `Int`.  A grid is stored cell by cell and
  the table of the dynamic-programming solver is a stack array of
  `(rows+1) * (columns+1)` ints, so the dimensions are far below `2^31` and no
  computation of the two functions wraps.
* A failed `assert`, a failed precondition of `add_step`, and a read outside an
  array or of a slot never written are all the result `none`.
* A `std::vector` used through `push_back`, `back` and `pop_back` only is a list
  whose head is the back of the vector.
-/

namespace cranes

/-! ## Data model (cranes_types.hpp) -/

/-- Modelled from the spec: the cell tag of cranes_types.hpp, which is not part of the
sources at hand. A cell is open, a building (impassable) or a crane. -/
inductive cell_kind where
  | CELL_OPEN
  | CELL_BUILDING
  | CELL_CRANE
  deriving DecidableEq, Repr

/-- Modelled from the spec: the step tag of cranes_types.hpp. EAST is column+1,
SOUTH is row+1. -/
inductive step_direction where
  | STEP_DIRECTION_EAST
  | STEP_DIRECTION_SOUTH
  deriving DecidableEq, Repr

open cell_kind step_direction

/-- Modelled from the spec: the grid class of cranes_types.hpp, a rectangular array of
cells with fixed dimensions. `cells r c` is only meaningful for `r < rows` and
`c < columns`. -/
structure grid where
  rows : Nat
  columns : Nat
  cells : Nat → Nat → cell_kind

/-- Modelled from the spec: `get(row, col)`, 0-indexed, with `row < rows` and
`col < columns`; a read outside the grid is `none`. -/
def grid.get (g : grid) (r c : Nat) : Option cell_kind :=
  if r < g.rows ∧ c < g.columns then some (g.cells r c) else none

/-- Modelled from the spec: the path class of cranes_types.hpp: the steps taken from
cell (0,0) in the order taken, the current position and the number of cranes
visited. The grid a path is bound to is passed to its operations. -/
structure path where
  steps : List step_direction
  final_row : Nat
  final_column : Nat
  total_cranes : Nat
  deriving DecidableEq, Repr

/-- Modelled from the spec: the constructor `path(setting)`: the empty path at the
origin; `total_cranes` counts the start cell if it is a crane. -/
def path.init (g : grid) : path :=
  { steps := [], final_row := 0, final_column := 0,
    total_cranes := if g.get 0 0 = some CELL_CRANE then 1 else 0 }

/-- The cell a step in direction `d` from the current position of `p` leads to. -/
def path.target (p : path) (d : step_direction) : Nat × Nat :=
  match d with
  | STEP_DIRECTION_EAST => (p.final_row, p.final_column + 1)
  | STEP_DIRECTION_SOUTH => (p.final_row + 1, p.final_column)

/-- Modelled from the spec: `is_step_valid(direction)`: true iff the step stays within
the grid and the cell entered is not a building. -/
def path.is_step_valid (g : grid) (p : path) (d : step_direction) : Bool :=
  match g.get (p.target d).1 (p.target d).2 with
  | some k => decide (k ≠ CELL_BUILDING)
  | none => false

/-- Modelled from the spec: `add_step(direction)`: requires `is_step_valid`, and fails
(`none`) when called on an invalid step; otherwise moves and adds 1 to
`total_cranes` if the cell entered is a crane. -/
def path.add_step (g : grid) (p : path) (d : step_direction) : Option path :=
  if p.is_step_valid g d then
    some { steps := p.steps ++ [d],
           final_row := (p.target d).1,
           final_column := (p.target d).2,
           total_cranes := p.total_cranes +
             (if g.get (p.target d).1 (p.target d).2 = some CELL_CRANE then 1 else 0) }
  else none

/-- The test `final_row() + 1 == rows() && final_column() + 1 == columns()`. -/
def path.at_destination (g : grid) (p : path) : Bool :=
  decide (p.final_row + 1 = g.rows ∧ p.final_column + 1 = g.columns)

/-! ## crane_unloading_exhaustive -/

/-- Lines 66-71 and 72-77: if the step is valid, copy the path, add the step and push
the copy on `all_paths`. -/
def push_if_valid (g : grid) (cur : path) (d : step_direction) (all_paths : List path) :
    Option (List path) :=
  if cur.is_step_valid g d then
    match cur.add_step g d with
    | some next_path => some (next_path :: all_paths)
    | none => none
  else some all_paths

/-- The `while (!new_paths.empty())` loop of lines 52-79. `new_paths` is the level
being drained (head = back of the vector), `best` the best path so far and
`all_paths` the next level under construction. -/
def drain (g : grid) : List path → path → List path → Option (path × List path)
  | [], best, all_paths => some (best, all_paths)
  | current_path :: new_paths, best, all_paths =>
    if current_path.at_destination g then
      if best.total_cranes < current_path.total_cranes then
        drain g new_paths current_path all_paths
      else
        drain g new_paths best all_paths
    else
      match push_if_valid g current_path STEP_DIRECTION_EAST all_paths with
      | none => none
      | some all_paths1 =>
        match push_if_valid g current_path STEP_DIRECTION_SOUTH all_paths1 with
        | none => none
        | some all_paths2 => drain g new_paths best all_paths2

/-- The `for (steps = 0; steps <= max_steps; steps++)` loop of lines 44-80; the first
argument is the number of iterations left. -/
def exhaustive_loop (g : grid) : Nat → path → List path → Option path
  | 0, best, _ => some best
  | n + 1, best, all_paths =>
    if best.at_destination g then some best
    else
      match drain g all_paths best [] with
      | none => none
      | some (best1, all_paths1) => exhaustive_loop g n best1 all_paths1

/-- The function `crane_unloading_exhaustive` (lines 31-83). -/
def crane_unloading_exhaustive (g : grid) : Option path :=
  if g.rows > 0 ∧ g.columns > 0 then
    let max_steps := g.rows + g.columns - 2
    if max_steps < 64 then
      exhaustive_loop g (max_steps + 1) (path.init g) [path.init g]
    else none
  else none

/-! ## crane_unloading_dyn_prog -/

/-- The array `my_grid`: a slot is `none` until it is written; slots outside the
array are never written. -/
abbrev table := Nat → Nat → Option Int

/-- The table before the fill: no slot written. -/
def table.blank : table := fun _ _ => none

/-- The assignment `my_grid[i][j] = v`. -/
def table.set (T : table) (i j : Nat) (v : Int) : table :=
  fun a b => if a = i ∧ b = j then some v else T a b

/-- A read `my_grid[x][y]` with `int` indices. -/
def table.read (T : table) (x y : Int) : Option Int :=
  if 0 ≤ x ∧ 0 ≤ y then T x.toNat y.toNat else none

/-- The body of the inner loop (lines 101-131) for the slot `(i, j)`. -/
def fill_cell (g : grid) (T : table) (i j : Nat) : Option table :=
  if i = 0 ∨ j = 0 then some (T.set i j 0)
  else
    let seed : Int := if i = 1 ∧ j = 1 then 1 else 0
    match g.get (i - 1) (j - 1) with
    | none => none
    | some current_cell =>
      if current_cell = CELL_BUILDING then some (T.set i j (-1))
      else
        let v : Int := if current_cell = CELL_CRANE then seed + 1 else seed
        match T (i - 1) j, T i (j - 1) with
        | some up, some left =>
          let max : Int := if up > left then up else left
          some (T.set i j (v + max))
        | _, _ => none

/-- The loop over `j` (line 99); the first argument is the number of iterations
left, `j` the current column index. -/
def fill_columns (g : grid) (i : Nat) : Nat → Nat → table → Option table
  | 0, _, T => some T
  | n + 1, j, T =>
    match fill_cell g T i j with
    | none => none
    | some T1 => fill_columns g i n (j + 1) T1

/-- The loop over `i` (line 97); the first argument is the number of iterations
left, `i` the current row index. -/
def fill_rows (g : grid) : Nat → Nat → table → Option table
  | 0, _, T => some T
  | n + 1, i, T =>
    match fill_columns g i (g.columns + 1) 0 T with
    | none => none
    | some T1 => fill_rows g n (i + 1) T1

/-- The table fill of lines 95-133. -/
def fill_table (g : grid) : Option table :=
  fill_rows g (g.rows + 1) 0 table.blank

/-- The test `(my_grid[x-1][y] == -1) && (my_grid[x][y-1] == -1)` of line 140; the
second read happens only when the first comparison holds. -/
def both_blocked (T : table) (x y : Int) : Option Bool :=
  match T.read (x - 1) y with
  | none => none
  | some up =>
    if up = -1 then
      match T.read x (y - 1) with
      | none => none
      | some left => some (decide (left = -1))
    else some false

/-- The test `(my_grid[x-1][y] >= my_grid[x][y-1]) && x != 1` of line 150. -/
def south_chosen (T : table) (x y : Int) : Option Bool :=
  match T.read (x - 1) y, T.read x (y - 1) with
  | some up, some left => some (decide (up ≥ left) && decide (x ≠ 1))
  | _, _ => none

/-- The backtrace loop of lines 138-160; the first argument is the number of
iterations left, the list is `directions` (head = back of the vector). -/
def backtrace (T : table) : Nat → Int → Int → List step_direction →
    Option (List step_direction)
  | 0, _, _, directions => some directions
  | n + 1, x, y, directions =>
    match both_blocked T x y with
    | none => none
    | some true => backtrace T n (x - 1) (y - 1) directions
    | some false =>
      match T.read x y with
      | none => none
      | some here =>
        if here = -1 then some directions
        else
          match south_chosen T x y with
          | none => none
          | some true => backtrace T n (x - 1) y (STEP_DIRECTION_SOUTH :: directions)
          | some false =>
            if y ≠ 1 then backtrace T n x (y - 1) (STEP_DIRECTION_EAST :: directions)
            else backtrace T n x y directions

/-- The replay loop of lines 162-169: the directions are taken from the back of the
vector, and a step is added only when it is valid. -/
def replay (g : grid) : List step_direction → path → Option path
  | [], best => some best
  | current_direction :: directions, best =>
    if best.is_step_valid g current_direction then
      match best.add_step g current_direction with
      | none => none
      | some best1 => replay g directions best1
    else replay g directions best

/-- The function `crane_unloading_dyn_prog` (lines 89-171). -/
def crane_unloading_dyn_prog (g : grid) : Option path :=
  if g.rows > 0 ∧ g.columns > 0 then
    match fill_table g with
    | none => none
    | some T =>
      let max_steps := g.rows + g.columns - 2
      match backtrace T max_steps (g.rows : Int) (g.columns : Int) [] with
      | none => none
      | some directions => replay g directions (path.init g)
  else none

/-! ## Routes on a grid, in the words of the specification -/

/-- One step from a cell: EAST is column+1, SOUTH is row+1. -/
def move (c : Nat × Nat) : step_direction → Nat × Nat
  | STEP_DIRECTION_EAST => (c.1, c.2 + 1)
  | STEP_DIRECTION_SOUTH => (c.1 + 1, c.2)

/-- The cells visited by the steps `s` taken from the cell `c`, `c` included. -/
def cells_from (c : Nat × Nat) : List step_direction → List (Nat × Nat)
  | [] => [c]
  | d :: s => c :: cells_from (move c d) s

/-- The cells a path with steps `s` visits, the origin first. -/
def visited (s : List step_direction) : List (Nat × Nat) := cells_from (0, 0) s

/-- The cell a path with steps `s` ends in. -/
def end_cell (s : List step_direction) : Nat × Nat := s.foldl move (0, 0)

/-- The cell is inside the grid and is not a building. -/
def passable (g : grid) (c : Nat × Nat) : Bool :=
  match g.get c.1 c.2 with
  | some k => decide (k ≠ CELL_BUILDING)
  | none => false

/-- The cell is inside the grid and is a crane. -/
def is_crane (g : grid) (c : Nat × Nat) : Bool :=
  decide (g.get c.1 c.2 = some CELL_CRANE)

/-- The number of crane cells among the cells visited, the origin included. -/
def crane_count (g : grid) (s : List step_direction) : Nat :=
  (visited s).countP (is_crane g)

/-- Every step of `s` enters a cell inside the grid that is not a building. -/
def steps_valid (g : grid) (s : List step_direction) : Prop :=
  ∀ c ∈ (visited s).tail, passable g c = true

/-- The steps `s` form a monotonic path from (0,0) to (rows-1, columns-1) that avoids
every building: all the cells visited, the origin included, are inside the grid and
not buildings. -/
def monotonic_route (g : grid) (s : List step_direction) : Prop :=
  (∀ c ∈ visited s, passable g c = true) ∧ end_cell s = (g.rows - 1, g.columns - 1)

instance (g : grid) (s : List step_direction) : Decidable (steps_valid g s) := by
  unfold steps_valid; infer_instance

instance (g : grid) (s : List step_direction) : Decidable (monotonic_route g s) := by
  unfold monotonic_route; infer_instance

/-- The steps `s` lead from (0,0) to (rows-1, columns-1) and none of them leaves the
grid or enters a building: each step passes the test `is_step_valid`. The origin cell,
which no step enters, is not examined; on a grid whose origin is not a building these
are the routes of `monotonic_route`. -/
def valid_route (g : grid) (s : List step_direction) : Prop :=
  steps_valid g s ∧ end_cell s = (g.rows - 1, g.columns - 1)

instance (g : grid) (s : List step_direction) : Decidable (valid_route g s) := by
  unfold valid_route; infer_instance

/-- The path record the steps `s` give on the grid `g`. -/
def path.of_steps (g : grid) (s : List step_direction) : path :=
  { steps := s, final_row := (end_cell s).1, final_column := (end_cell s).2,
    total_cranes := crane_count g s }

/-- The path was built from the empty path by valid steps only: its position and its
crane count are those of its steps, and every step was valid when taken. -/
def path.wf (g : grid) (p : path) : Prop :=
  p = path.of_steps g p.steps ∧ steps_valid g p.steps

/-! ## Definitions used in the proofs -/

/-- The frontier `F` holds exactly the paths of `k` valid steps. -/
def is_level (g : grid) (k : Nat) (F : List path) : Prop :=
  ∀ q, q ∈ F ↔ (q.wf g ∧ q.steps.length = k)

/-- The value lines 107-129 give the slot `(i, j)`, `i, j ≥ 1`, from the value `up` of
the slot above and the value `left` of the slot to the left. -/
def cell_value (g : grid) (i j : Nat) (up left : Int) : Int :=
  if g.cells (i - 1) (j - 1) = CELL_BUILDING then -1
  else
    (if g.cells (i - 1) (j - 1) = CELL_CRANE then (if i = 1 ∧ j = 1 then 1 else 0) + 1
      else (if i = 1 ∧ j = 1 then 1 else 0))
    + (if up > left then up else left)

/-- Row `i` of the table, given the row above. -/
def dp_row (g : grid) (i : Nat) (above : Nat → Int) : Nat → Int
  | 0 => 0
  | j + 1 => cell_value g i (j + 1) (above (j + 1)) (dp_row g i above j)

/-- The table as a recurrence: row and column 0 hold 0. -/
def dp (g : grid) : Nat → Nat → Int
  | 0 => fun _ => 0
  | i + 1 => dp_row g (i + 1) (dp g i)

/-- The table when the fill is about to write slot `(i, j)`: the slots before it in
row-major order are written. -/
def filled (g : grid) (i j : Nat) : table :=
  fun a b => if (a < i ∨ (a = i ∧ b < j)) ∧ b ≤ g.columns then some (dp g a b) else none

/-- The table the fill leaves. -/
def dp_table (g : grid) : table := filled g (g.rows + 1) 0

/-! ## Grids used as concrete inputs -/

/-- The grid with the given rows; a cell outside the lists is open. -/
def grid.of_rows (rows columns : Nat) (l : List (List cell_kind)) : grid :=
  { rows := rows, columns := columns,
    cells := fun r c => (l.getD r []).getD c CELL_OPEN }

/-- The 2x3 grid `OPEN BUILDING CRANE / OPEN OPEN CRANE`. -/
def grid_detour : grid :=
  grid.of_rows 2 3 [[CELL_OPEN, CELL_BUILDING, CELL_CRANE], [CELL_OPEN, CELL_OPEN, CELL_CRANE]]

/-- The 2x2 grid of open cells. -/
def grid_open2 : grid :=
  grid.of_rows 2 2 [[CELL_OPEN, CELL_OPEN], [CELL_OPEN, CELL_OPEN]]

/-- The 3x3 grid whose row index 1 is all buildings, the other cells open. -/
def grid_wall3 : grid :=
  grid.of_rows 3 3 [[CELL_OPEN, CELL_OPEN, CELL_OPEN],
    [CELL_BUILDING, CELL_BUILDING, CELL_BUILDING], [CELL_OPEN, CELL_OPEN, CELL_OPEN]]

/-- The 2x2 grid `CRANE OPEN / OPEN CRANE`. -/
def grid_crane_origin : grid :=
  grid.of_rows 2 2 [[CELL_CRANE, CELL_OPEN], [CELL_OPEN, CELL_CRANE]]

/-- The 2x2 grid `OPEN CRANE / CRANE OPEN` of scenario 2. -/
def grid_scenario2 : grid :=
  grid.of_rows 2 2 [[CELL_OPEN, CELL_CRANE], [CELL_CRANE, CELL_OPEN]]

/-! ## Definitions for the table, the frontier and the backtrace states -/

/-- The grid has no building cell. -/
def building_free (g : grid) : Prop :=
  ∀ r c, r < g.rows → c < g.columns → g.cells r c ≠ CELL_BUILDING

/-- The value of `all_paths` at the start of every iteration of the main loop of
`crane_unloading_exhaustive` (lines 44-80) and when the loop is left; the loop is
that of `exhaustive_loop`. -/
def frontiers (g : grid) : Nat → path → List path → List (List path)
  | 0, _, all_paths => [all_paths]
  | n + 1, best, all_paths =>
    if best.at_destination g then [all_paths]
    else
      match drain g all_paths best [] with
      | none => [all_paths]
      | some (best1, all_paths1) => all_paths :: frontiers g n best1 all_paths1

/-- The number of words of `k` steps with at most `a` SOUTH and at most `b` EAST
steps. -/
def box_words : Nat → Nat → Nat → Nat
  | 0, _, _ => 1
  | k + 1, a, b =>
    (if 0 < a then box_words k (a - 1) b else 0) + (if 0 < b then box_words k a (b - 1) else 0)

/-- The number of ways to continue the path `p` by `k` steps inside the grid. -/
def continuations (g : grid) (k : Nat) (p : path) : Nat :=
  box_words k (g.rows - 1 - p.final_row) (g.columns - 1 - p.final_column)

/-- The number of ways to continue a path of the frontier `F` by `k` steps inside the
grid. -/
def weight (g : grid) (k : Nat) (F : List path) : Nat :=
  (F.map (continuations g k)).sum

/-- The values of `(x, y)` at the start of every iteration of the backtrace loop
(lines 138-160); the loop is that of `backtrace`. -/
def backtrace_states (T : table) : Nat → Int → Int → List (Int × Int)
  | 0, _, _ => []
  | n + 1, x, y =>
    (x, y) ::
      match both_blocked T x y with
      | none => []
      | some true => backtrace_states T n (x - 1) (y - 1)
      | some false =>
        match T.read x y with
        | none => []
        | some here =>
          if here = -1 then []
          else
            match south_chosen T x y with
            | none => []
            | some true => backtrace_states T n (x - 1) y
            | some false =>
              if y ≠ 1 then backtrace_states T n x (y - 1)
              else backtrace_states T n x y

/-- The 2x2 grid of cranes. -/
def grid_cranes2 : grid :=
  grid.of_rows 2 2 [[CELL_CRANE, CELL_CRANE], [CELL_CRANE, CELL_CRANE]]

/-- The 1x1 grid of one open cell. -/
def grid_single_open : grid := grid.of_rows 1 1 [[CELL_OPEN]]

/-- The 3x3 grid `OPEN OPEN OPEN / OPEN OPEN BUILDING / OPEN BUILDING OPEN`: both
neighbours of the destination are buildings. -/
def grid_corner : grid :=
  grid.of_rows 3 3 [[CELL_OPEN, CELL_OPEN, CELL_OPEN],
    [CELL_OPEN, CELL_OPEN, CELL_BUILDING], [CELL_OPEN, CELL_BUILDING, CELL_OPEN]]

/-! ## Lemmas on paths -/

theorem cells_from_snoc (c : Nat × Nat) (s : List step_direction) (d : step_direction) :
    cells_from c (s ++ [d]) = cells_from c s ++ [move (s.foldl move c) d] := by
  induction s generalizing c with
  | nil => simp [cells_from]
  | cons e s ih => simp [cells_from, ih]

theorem cells_from_ne_nil (c : Nat × Nat) (s : List step_direction) : cells_from c s ≠ [] := by
  cases s <;> simp [cells_from]

theorem cells_from_length (c : Nat × Nat) (s : List step_direction) :
    (cells_from c s).length = s.length + 1 := by
  induction s generalizing c with
  | nil => simp [cells_from]
  | cons e s ih => simp [cells_from, ih]

theorem visited_snoc (s : List step_direction) (d : step_direction) :
    visited (s ++ [d]) = visited s ++ [move (end_cell s) d] := by
  simp [visited, end_cell, cells_from_snoc]

theorem visited_tail_snoc (s : List step_direction) (d : step_direction) :
    (visited (s ++ [d])).tail = (visited s).tail ++ [move (end_cell s) d] := by
  rw [visited_snoc]
  have h : visited s ≠ [] := cells_from_ne_nil _ _
  cases hv : visited s with
  | nil => exact absurd hv h
  | cons a l => simp

theorem end_cell_snoc (s : List step_direction) (d : step_direction) :
    end_cell (s ++ [d]) = move (end_cell s) d := by
  simp [end_cell]

theorem crane_count_snoc (g : grid) (s : List step_direction) (d : step_direction) :
    crane_count g (s ++ [d]) =
      crane_count g s + (if is_crane g (move (end_cell s) d) = true then 1 else 0) := by
  simp [crane_count, visited_snoc, List.countP_append, List.countP_cons]

theorem steps_valid_snoc (g : grid) (s : List step_direction) (d : step_direction) :
    steps_valid g (s ++ [d]) ↔ steps_valid g s ∧ passable g (move (end_cell s) d) = true := by
  unfold steps_valid
  rw [visited_tail_snoc]
  constructor
  · intro h
    exact ⟨fun c hc => h c (List.mem_append_left _ hc), h _ (by simp)⟩
  · rintro ⟨h1, h2⟩ c hc
    rcases List.mem_append.mp hc with hc | hc
    · exact h1 c hc
    · simp at hc; subst hc; exact h2

theorem target_eq_move (p : path) (d : step_direction) :
    p.target d = move (p.final_row, p.final_column) d := by
  cases d <;> rfl

theorem is_step_valid_eq (g : grid) (p : path) (d : step_direction) :
    p.is_step_valid g d = passable g (move (p.final_row, p.final_column) d) := by
  simp [path.is_step_valid, passable, target_eq_move]

theorem wf_init (g : grid) : (path.init g).wf g := by
  constructor
  · simp [path.init, path.of_steps, end_cell, crane_count, visited, cells_from, is_crane,
      List.countP_cons]
  · intro c hc
    simp [path.init, visited, cells_from] at hc

theorem init_eq_of_steps (g : grid) : path.init g = path.of_steps g [] := (wf_init g).1

theorem add_step_of_steps (g : grid) (s : List step_direction) (d : step_direction)
    (h : passable g (move (end_cell s) d) = true) :
    (path.of_steps g s).add_step g d = some (path.of_steps g (s ++ [d])) := by
  have hv : (path.of_steps g s).is_step_valid g d = true := by
    rw [is_step_valid_eq]; exact h
  simp only [path.add_step, hv, if_true, target_eq_move]
  simp [path.of_steps, end_cell_snoc, crane_count_snoc, is_crane]

theorem wf_add_step (g : grid) (p q : path) (d : step_direction) (hp : p.wf g)
    (h : p.add_step g d = some q) : q.wf g ∧ q.steps = p.steps ++ [d] := by
  obtain ⟨hp1, hp2⟩ := hp
  have hv : p.is_step_valid g d = true := by
    by_contra hn
    simp [path.add_step, hn] at h
  have hpass : passable g (move (end_cell p.steps) d) = true := by
    rw [is_step_valid_eq] at hv
    rw [hp1] at hv
    exact hv
  have h2 := add_step_of_steps g p.steps d hpass
  rw [← hp1, h] at h2
  have hq : q = path.of_steps g (p.steps ++ [d]) := by
    simpa using h2
  have hs : q.steps = p.steps ++ [d] := by
    rw [hq]; rfl
  refine ⟨⟨?_, ?_⟩, hs⟩
  · rw [hs]; exact hq
  · rw [hs, steps_valid_snoc]; exact ⟨hp2, hpass⟩

/-! ## Lemmas on routes -/

theorem visited_eq_cons (s : List step_direction) : visited s = (0, 0) :: (visited s).tail := by
  cases s <;> simp [visited, cells_from]

theorem move_sum (c : Nat × Nat) (d : step_direction) : (move c d).1 + (move c d).2 = c.1 + c.2 + 1 := by
  cases d <;> simp [move] <;> omega

theorem foldl_move_sum (s : List step_direction) (c : Nat × Nat) :
    (s.foldl move c).1 + (s.foldl move c).2 = c.1 + c.2 + s.length := by
  induction s generalizing c with
  | nil => simp
  | cons d s ih =>
    simp only [List.foldl_cons, List.length_cons]
    rw [ih, move_sum]; omega

theorem end_cell_sum (s : List step_direction) : (end_cell s).1 + (end_cell s).2 = s.length := by
  have h := foldl_move_sum s (0, 0)
  simpa [end_cell] using h

theorem end_cell_mem_tail (s : List step_direction) (h : s ≠ []) :
    end_cell s ∈ (visited s).tail := by
  induction s using List.reverseRecOn with
  | nil => exact absurd rfl h
  | append_singleton s d _ =>
    rw [visited_tail_snoc, end_cell_snoc]
    simp

theorem passable_bounds (g : grid) (c : Nat × Nat) (h : passable g c = true) :
    c.1 < g.rows ∧ c.2 < g.columns := by
  unfold passable grid.get at h
  by_contra hn
  simp [hn] at h

theorem steps_valid_of_route (g : grid) (s : List step_direction) (h : monotonic_route g s) :
    steps_valid g s := by
  intro c hc
  exact h.1 c (List.mem_of_mem_tail hc)

theorem route_length (g : grid) (s : List step_direction) (hr : 0 < g.rows) (hc : 0 < g.columns)
    (h : monotonic_route g s) : s.length = g.rows + g.columns - 2 := by
  have h1 := end_cell_sum s
  rw [h.2] at h1
  simp at h1
  omega

theorem origin_count_le (g : grid) (s : List step_direction) :
    (path.init g).total_cranes ≤ crane_count g s := by
  rw [init_eq_of_steps]
  show crane_count g [] ≤ crane_count g s
  unfold crane_count
  rw [visited_eq_cons s]
  simp only [visited, cells_from, List.countP_cons, List.countP_nil]
  omega

/-- A path built by valid steps sits `steps.length` moves from the origin. -/
theorem wf_position_sum (g : grid) (p : path) (h : p.wf g) :
    p.final_row + p.final_column = p.steps.length := by
  have h1 := h.1
  have h2 := end_cell_sum p.steps
  rw [h1]
  simpa [path.of_steps] using h2

theorem wf_position_bounds (g : grid) (p : path) (h : p.wf g) (hne : p.steps ≠ []) :
    p.final_row < g.rows ∧ p.final_column < g.columns := by
  have h1 := h.1
  have h3 := passable_bounds g _ (h.2 _ (end_cell_mem_tail p.steps hne))
  rw [h1]
  simpa [path.of_steps] using h3

theorem wf_of_steps (g : grid) (s : List step_direction) (h : steps_valid g s) :
    (path.of_steps g s).wf g := ⟨rfl, h⟩

/-! ## Lemmas on the exhaustive solver -/

theorem push_if_valid_spec (g : grid) (cur : path) (d : step_direction) (acc : List path) :
    ∃ acc1, push_if_valid g cur d acc = some acc1 ∧
      ∀ q, q ∈ acc1 ↔ (q ∈ acc ∨ cur.add_step g d = some q) := by
  unfold push_if_valid
  by_cases hv : cur.is_step_valid g d = true
  · simp only [hv, if_true]
    cases hq : cur.add_step g d with
    | none => simp [path.add_step, hv] at hq
    | some q1 =>
      refine ⟨q1 :: acc, rfl, ?_⟩
      intro q
      simp only [List.mem_cons, Option.some.injEq]
      constructor
      · rintro (h | h)
        · exact Or.inr h.symm
        · exact Or.inl h
      · rintro (h | h)
        · exact Or.inr h
        · exact Or.inl h.symm
  · have hn : cur.add_step g d = none := by simp [path.add_step, hv]
    simp only [hv]
    refine ⟨acc, by simp, ?_⟩
    intro q
    simp [hn]

theorem drain_expand (g : grid) (F : List path) (best : path) (acc : List path)
    (h : ∀ p ∈ F, p.at_destination g = false) :
    ∃ F1, drain g F best acc = some (best, F1) ∧
      ∀ q, q ∈ F1 ↔ (q ∈ acc ∨ ∃ p ∈ F, ∃ d, p.add_step g d = some q) := by
  induction F generalizing acc with
  | nil => exact ⟨acc, rfl, by simp⟩
  | cons cur F ih =>
    have hcur : cur.at_destination g = false := h cur (List.mem_cons_self _ _)
    obtain ⟨a1, h1, m1⟩ := push_if_valid_spec g cur STEP_DIRECTION_EAST acc
    obtain ⟨a2, h2, m2⟩ := push_if_valid_spec g cur STEP_DIRECTION_SOUTH a1
    obtain ⟨F1, h3, m3⟩ := ih a2 (fun p hp => h p (List.mem_cons_of_mem _ hp))
    refine ⟨F1, ?_, ?_⟩
    · simp only [drain, hcur, h1, h2]
      simpa using h3
    · intro q
      rw [m3, m2, m1]
      constructor
      · rintro (((hq | hq) | hq) | ⟨p, hp, d, hq⟩)
        · exact Or.inl hq
        · exact Or.inr ⟨cur, List.mem_cons_self _ _, _, hq⟩
        · exact Or.inr ⟨cur, List.mem_cons_self _ _, _, hq⟩
        · exact Or.inr ⟨p, List.mem_cons_of_mem _ hp, d, hq⟩
      · rintro (hq | ⟨p, hp, d, hq⟩)
        · exact Or.inl (Or.inl (Or.inl hq))
        · rcases List.mem_cons.mp hp with rfl | hp
          · cases d
            · exact Or.inl (Or.inl (Or.inr hq))
            · exact Or.inl (Or.inr hq)
          · exact Or.inr ⟨p, hp, d, hq⟩

theorem drain_final (g : grid) (F : List path) (best : path) (acc : List path)
    (h : ∀ p ∈ F, p.at_destination g = true) :
    ∃ b, drain g F best acc = some (b, acc) ∧ (b = best ∨ b ∈ F) ∧
      best.total_cranes ≤ b.total_cranes ∧ ∀ p ∈ F, p.total_cranes ≤ b.total_cranes := by
  induction F generalizing best with
  | nil => exact ⟨best, rfl, Or.inl rfl, le_refl _, by simp⟩
  | cons cur F ih =>
    have hcur : cur.at_destination g = true := h cur (List.mem_cons_self _ _)
    have hF : ∀ p ∈ F, p.at_destination g = true := fun p hp => h p (List.mem_cons_of_mem _ hp)
    by_cases hlt : best.total_cranes < cur.total_cranes
    · obtain ⟨b, h1, h2, h3, h4⟩ := ih cur hF
      refine ⟨b, ?_, ?_, by omega, ?_⟩
      · simp only [drain, hcur, hlt, if_true]; exact h1
      · rcases h2 with h2 | h2
        · exact Or.inr (h2 ▸ List.mem_cons_self _ _)
        · exact Or.inr (List.mem_cons_of_mem _ h2)
      · intro p hp
        rcases List.mem_cons.mp hp with rfl | hp
        · exact h3
        · exact h4 p hp
    · obtain ⟨b, h1, h2, h3, h4⟩ := ih best hF
      refine ⟨b, ?_, ?_, h3, ?_⟩
      · simp only [drain, hcur, hlt, if_true, if_false]; exact h1
      · rcases h2 with h2 | h2
        · exact Or.inl h2
        · exact Or.inr (List.mem_cons_of_mem _ h2)
      · intro p hp
        rcases List.mem_cons.mp hp with rfl | hp
        · omega
        · exact h4 p hp

theorem is_level_zero (g : grid) : is_level g 0 [path.init g] := by
  intro q
  simp only [List.mem_singleton]
  constructor
  · rintro rfl
    exact ⟨wf_init g, rfl⟩
  · rintro ⟨⟨h1, _⟩, h2⟩
    have hs : q.steps = [] := List.length_eq_zero.mp h2
    rw [h1, hs, init_eq_of_steps]

theorem is_level_succ (g : grid) (k : Nat) (F F1 : List path) (hF : is_level g k F)
    (h : ∀ q, q ∈ F1 ↔ (q ∈ ([] : List path) ∨ ∃ p ∈ F, ∃ d, p.add_step g d = some q)) :
    is_level g (k + 1) F1 := by
  intro q
  rw [h]
  constructor
  · rintro (hq | ⟨p, hp, d, hq⟩)
    · simp at hq
    · obtain ⟨hpw, hpl⟩ := (hF p).mp hp
      obtain ⟨hqw, hqs⟩ := wf_add_step g p q d hpw hq
      exact ⟨hqw, by simp [hqs, hpl]⟩
  · rintro ⟨⟨hq1, hq2⟩, hql⟩
    rcases List.eq_nil_or_concat q.steps with hs | ⟨s, d, hs⟩
    · simp [hs] at hql
    · right
      rw [List.concat_eq_append] at hs
      rw [hs, steps_valid_snoc] at hq2
      refine ⟨path.of_steps g s, (hF _).mpr ⟨wf_of_steps g s hq2.1, ?_⟩, d, ?_⟩
      · have : (s ++ [d]).length = k + 1 := by rw [← hs]; exact hql
        simpa [path.of_steps] using this
      · rw [add_step_of_steps g s d hq2.2, ← hs, ← hq1]

theorem not_at_destination_of_short (g : grid) (p : path) (h : p.wf g)
    (hlt : p.steps.length < g.rows + g.columns - 2) : p.at_destination g = false := by
  have h1 := wf_position_sum g p h
  simp only [path.at_destination, decide_eq_false_iff_not]
  omega

theorem at_destination_of_full (g : grid) (p : path) (h : p.wf g)
    (hpos : 0 < g.rows + g.columns - 2)
    (hl : p.steps.length = g.rows + g.columns - 2) : p.at_destination g = true := by
  have h1 := wf_position_sum g p h
  have hne : p.steps ≠ [] := by
    intro hn
    rw [hn] at hl
    simp at hl
    omega
  have h2 := wf_position_bounds g p h hne
  simp only [path.at_destination, decide_eq_true_eq]
  omega

theorem init_not_at_destination (g : grid) (hpos : 0 < g.rows + g.columns - 2) :
    (path.init g).at_destination g = false := by
  simp only [path.at_destination, path.init, decide_eq_false_iff_not]
  omega

/-- The main loop from level `k` on, while `best` is still the empty path: it returns
the best of the empty path and the full-length frontier. -/
theorem exhaustive_loop_spec (g : grid) (hpos : 0 < g.rows + g.columns - 2) :
    ∀ (n k : Nat) (F : List path), k + n = g.rows + g.columns - 2 → is_level g k F →
      ∃ b FM, is_level g (g.rows + g.columns - 2) FM ∧
        exhaustive_loop g (n + 1) (path.init g) F = some b ∧
        (b = path.init g ∨ b ∈ FM) ∧
        (path.init g).total_cranes ≤ b.total_cranes ∧
        ∀ p ∈ FM, p.total_cranes ≤ b.total_cranes := by
  intro n
  induction n with
  | zero =>
    intro k F hk hF
    have hk2 : k = g.rows + g.columns - 2 := by omega
    subst hk2
    have hdest : ∀ p ∈ F, p.at_destination g = true := fun p hp =>
      at_destination_of_full g p ((hF p).mp hp).1 hpos ((hF p).mp hp).2
    obtain ⟨b, h1, h2, h3, h4⟩ := drain_final g F (path.init g) [] hdest
    refine ⟨b, F, hF, ?_, h2, h3, h4⟩
    simp [exhaustive_loop, init_not_at_destination g hpos, h1]
  | succ n ih =>
    intro k F hk hF
    have hnd : ∀ p ∈ F, p.at_destination g = false := fun p hp =>
      not_at_destination_of_short g p ((hF p).mp hp).1 (by
        rw [((hF p).mp hp).2]; omega)
    obtain ⟨F1, h1, h2⟩ := drain_expand g F (path.init g) [] hnd
    have hF1 := is_level_succ g k F F1 hF h2
    obtain ⟨b, FM, r1, r2, r3⟩ := ih (k + 1) F1 (by omega) hF1
    refine ⟨b, FM, r1, ?_, r3⟩
    rw [exhaustive_loop]
    simp only [init_not_at_destination g hpos, h1]
    exact r2

/-- On a grid of a single cell the loop stops at once with the empty path. -/
theorem exhaustive_single (g : grid) (hr : 0 < g.rows) (hc : 0 < g.columns)
    (h0 : g.rows + g.columns - 2 = 0) :
    crane_unloading_exhaustive g = some (path.init g) := by
  have hd : (path.init g).at_destination g = true := by
    simp only [path.at_destination, path.init, decide_eq_true_eq]
    omega
  simp [crane_unloading_exhaustive, hr, hc, h0, exhaustive_loop, hd]

/-- What the exhaustive solver returns on a grid of more than one cell. -/
theorem exhaustive_spec (g : grid) (hr : 0 < g.rows) (hc : 0 < g.columns)
    (hb : g.rows + g.columns - 2 < 64) (hpos : 0 < g.rows + g.columns - 2) :
    ∃ b FM, is_level g (g.rows + g.columns - 2) FM ∧
      crane_unloading_exhaustive g = some b ∧
      (b = path.init g ∨ b ∈ FM) ∧
      (path.init g).total_cranes ≤ b.total_cranes ∧
      ∀ p ∈ FM, p.total_cranes ≤ b.total_cranes := by
  obtain ⟨b, FM, h1, h2, h3⟩ :=
    exhaustive_loop_spec g hpos (g.rows + g.columns - 2) 0 [path.init g] (by omega)
      (is_level_zero g)
  refine ⟨b, FM, h1, ?_, h3⟩
  simp only [crane_unloading_exhaustive, hr, hc, hb, and_self, if_true]
  exact h2

/-! ## The table of the dynamic-programming solver as a recurrence -/

theorem dp_zero_left (g : grid) (j : Nat) : dp g 0 j = 0 := rfl

theorem dp_zero_right (g : grid) (i : Nat) : dp g i 0 = 0 := by
  cases i <;> rfl

theorem dp_succ (g : grid) (i j : Nat) :
    dp g (i + 1) (j + 1) = cell_value g (i + 1) (j + 1) (dp g i (j + 1)) (dp g (i + 1) j) := rfl

theorem read_cast (T : table) (a b : Nat) : T.read (a : Int) (b : Int) = T a b := by
  simp [table.read]

theorem filled_row_end (g : grid) (i : Nat) : filled g i (g.columns + 1) = filled g (i + 1) 0 := by
  funext a b
  have h : ((a < i ∨ (a = i ∧ b < g.columns + 1)) ∧ b ≤ g.columns) ↔
      ((a < i + 1 ∨ (a = i + 1 ∧ b < 0)) ∧ b ≤ g.columns) := by omega
  simp only [filled, h]

theorem filled_set (g : grid) (i j : Nat) (hj : j ≤ g.columns) :
    (filled g i j).set i j (dp g i j) = filled g i (j + 1) := by
  funext a b
  simp only [table.set, filled]
  by_cases hab : a = i ∧ b = j
  · obtain ⟨rfl, rfl⟩ := hab
    have h : ((a < a ∨ (a = a ∧ b < b + 1)) ∧ b ≤ g.columns) := by omega
    simp [h]
  · have h : ((a < i ∨ (a = i ∧ b < j)) ∧ b ≤ g.columns) ↔
        ((a < i ∨ (a = i ∧ b < j + 1)) ∧ b ≤ g.columns) := by omega
    simp only [hab, if_false, h]

theorem fill_cell_filled (g : grid) (i j : Nat) (hi : i ≤ g.rows) (hj : j ≤ g.columns) :
    fill_cell g (filled g i j) i j = some (filled g i (j + 1)) := by
  rw [← filled_set g i j hj]
  cases i with
  | zero => simp [fill_cell, dp_zero_left]
  | succ a =>
    cases j with
    | zero => simp [fill_cell, dp_zero_right]
    | succ b =>
      have hget : g.get a b = some (g.cells a b) := by
        simp only [grid.get]
        rw [if_pos]
        omega
      have hup : filled g (a + 1) (b + 1) a (b + 1) = some (dp g a (b + 1)) := by
        simp only [filled]
        rw [if_pos]
        omega
      have hleft : filled g (a + 1) (b + 1) (a + 1) b = some (dp g (a + 1) b) := by
        simp only [filled]
        rw [if_pos]
        exact ⟨Or.inr ⟨trivial, by omega⟩, by omega⟩
      simp only [fill_cell, Nat.add_sub_cancel, hget, hup, hleft, dp_succ, cell_value]
      by_cases hb : g.cells a b = CELL_BUILDING
      · simp [hb]
      · simp [hb]

theorem fill_columns_filled (g : grid) (i : Nat) (hi : i ≤ g.rows) :
    ∀ n j, j + n = g.columns + 1 →
      fill_columns g i n j (filled g i j) = some (filled g i (g.columns + 1)) := by
  intro n
  induction n with
  | zero =>
    intro j hj
    have : j = g.columns + 1 := by omega
    subst this
    rfl
  | succ n ih =>
    intro j hj
    simp only [fill_columns, fill_cell_filled g i j hi (by omega)]
    exact ih (j + 1) (by omega)

theorem fill_rows_filled (g : grid) :
    ∀ n i, i + n = g.rows + 1 →
      fill_rows g n i (filled g i 0) = some (filled g (g.rows + 1) 0) := by
  intro n
  induction n with
  | zero =>
    intro i hi
    have : i = g.rows + 1 := by omega
    subst this
    rfl
  | succ n ih =>
    intro i hi
    simp only [fill_rows, fill_columns_filled g i (by omega) (g.columns + 1) 0 (by omega),
      filled_row_end]
    exact ih (i + 1) (by omega)

theorem blank_eq_filled (g : grid) : table.blank = filled g 0 0 := by
  funext a b
  simp [table.blank, filled]

/-- The fill never fails, and the table it leaves holds the recurrence. -/
theorem fill_table_eq (g : grid) : fill_table g = some (filled g (g.rows + 1) 0) := by
  unfold fill_table
  rw [blank_eq_filled g]
  exact fill_rows_filled g (g.rows + 1) 0 (by omega)

theorem filled_final (g : grid) (a b : Nat) :
    filled g (g.rows + 1) 0 a b = if a ≤ g.rows ∧ b ≤ g.columns then some (dp g a b) else none := by
  have h : ((a < g.rows + 1 ∨ (a = g.rows + 1 ∧ b < 0)) ∧ b ≤ g.columns) ↔
      (a ≤ g.rows ∧ b ≤ g.columns) := by omega
  simp only [filled, h]

/-! ## Lemmas on the backtrace and the replay -/

theorem dp_table_read (g : grid) (a b : Nat) (ha : a ≤ g.rows) (hb : b ≤ g.columns) :
    (dp_table g).read (a : Int) (b : Int) = some (dp g a b) := by
  rw [read_cast, dp_table, filled_final, if_pos ⟨ha, hb⟩]

theorem cast_succ_sub_one (a : Nat) : ((a + 1 : Nat) : Int) - 1 = (a : Int) := by
  push_cast
  ring

/-- One iteration of the backtrace when line 140 does not fire: the rest of the body
reads inside the table. -/
theorem backtrace_step_unblocked (g : grid) (n a b : Nat) (ds : List step_direction)
    (ha : a < g.rows) (hb : b < g.columns)
    (ih : ∀ (a b : Nat) (ds : List step_direction), a < g.rows → b < g.columns →
      ∃ r, backtrace (dp_table g) n ((a + 1 : Nat) : Int) ((b + 1 : Nat) : Int) ds = some r)
    (hbb : both_blocked (dp_table g) ((a + 1 : Nat) : Int) ((b + 1 : Nat) : Int) = some false) :
    ∃ r, backtrace (dp_table g) (n + 1) ((a + 1 : Nat) : Int) ((b + 1 : Nat) : Int) ds
      = some r := by
  have hup : (dp_table g).read (a : Int) ((b + 1 : Nat) : Int) = some (dp g a (b + 1)) :=
    dp_table_read g a (b + 1) (by omega) (by omega)
  have hleft : (dp_table g).read ((a + 1 : Nat) : Int) (b : Int) = some (dp g (a + 1) b) :=
    dp_table_read g (a + 1) b (by omega) (by omega)
  have hhere : (dp_table g).read ((a + 1 : Nat) : Int) ((b + 1 : Nat) : Int)
      = some (dp g (a + 1) (b + 1)) :=
    dp_table_read g (a + 1) (b + 1) (by omega) (by omega)
  rw [backtrace]
  simp only [hbb, hhere]
  by_cases h3 : dp g (a + 1) (b + 1) = -1
  · exact ⟨ds, by rw [if_pos h3]⟩
  · rw [if_neg h3]
    simp only [south_chosen, cast_succ_sub_one, hup, hleft]
    cases hs : (decide (dp g a (b + 1) ≥ dp g (a + 1) b) && decide (((a + 1 : Nat) : Int) ≠ 1))
    · by_cases hy : ((b + 1 : Nat) : Int) ≠ 1
      · obtain ⟨b1, rfl⟩ : ∃ b1, b = b1 + 1 := ⟨b - 1, by push_cast at hy; omega⟩
        simp only [hy, if_true]
        exact ih a b1 _ ha (by omega)
      · simp only [hy, if_false]
        exact ih a b ds ha hb
    · have hx : ((a + 1 : Nat) : Int) ≠ 1 := by
        simp only [Bool.and_eq_true, decide_eq_true_eq] at hs
        exact hs.2
      obtain ⟨a1, rfl⟩ : ∃ a1, a = a1 + 1 := ⟨a - 1, by push_cast at hx; omega⟩
      exact ih a1 b _ (by omega) hb

/-- The backtrace started inside the table stays inside it: it never reads outside the
array, so it returns a list of directions. -/
theorem backtrace_total (g : grid) :
    ∀ (n a b : Nat) (ds : List step_direction), a < g.rows → b < g.columns →
      ∃ r, backtrace (dp_table g) n ((a + 1 : Nat) : Int) ((b + 1 : Nat) : Int) ds = some r := by
  intro n
  induction n with
  | zero => intro a b ds _ _; exact ⟨ds, rfl⟩
  | succ n ih =>
    intro a b ds ha hb
    have hup : (dp_table g).read (a : Int) ((b + 1 : Nat) : Int) = some (dp g a (b + 1)) :=
      dp_table_read g a (b + 1) (by omega) (by omega)
    have hleft : (dp_table g).read ((a + 1 : Nat) : Int) (b : Int) = some (dp g (a + 1) b) :=
      dp_table_read g (a + 1) b (by omega) (by omega)
    by_cases h1 : dp g a (b + 1) = -1
    · by_cases h2 : dp g (a + 1) b = -1
      · have hbb : both_blocked (dp_table g) ((a + 1 : Nat) : Int) ((b + 1 : Nat) : Int)
            = some true := by
          simp only [both_blocked, cast_succ_sub_one, hup, hleft, h1, h2, if_true, decide_True]
        obtain ⟨a1, rfl⟩ : ∃ a1, a = a1 + 1 :=
          ⟨a - 1, by cases a with
            | zero => simp [dp_zero_left] at h1
            | succ k => simp⟩
        obtain ⟨b1, rfl⟩ : ∃ b1, b = b1 + 1 :=
          ⟨b - 1, by cases b with
            | zero => simp [dp_zero_right] at h2
            | succ k => simp⟩
        rw [backtrace]
        simp only [hbb, cast_succ_sub_one]
        exact ih a1 b1 ds (by omega) (by omega)
      · apply backtrace_step_unblocked g n a b ds ha hb ih
        simp only [both_blocked, cast_succ_sub_one, hup, hleft, h1, h2, if_true, decide_False]
    · apply backtrace_step_unblocked g n a b ds ha hb ih
      simp only [both_blocked, cast_succ_sub_one, hup, h1, if_false]

/-- The replay never fails and keeps the path built by valid steps only. -/
theorem replay_wf (g : grid) :
    ∀ (ds : List step_direction) (p : path), p.wf g →
      ∃ q, replay g ds p = some q ∧ q.wf g := by
  intro ds
  induction ds with
  | nil => intro p hp; exact ⟨p, rfl, hp⟩
  | cons d ds ih =>
    intro p hp
    by_cases hv : p.is_step_valid g d = true
    · cases hq : p.add_step g d with
      | none => simp [path.add_step, hv] at hq
      | some p1 =>
        obtain ⟨q, h1, h2⟩ := ih p1 (wf_add_step g p p1 d hp hq).1
        exact ⟨q, by simp only [replay, hv, if_true, hq]; exact h1, h2⟩
    · obtain ⟨q, h1, h2⟩ := ih p hp
      exact ⟨q, by simp only [replay, hv]; simpa using h1, h2⟩

/-- On a non-empty grid the dynamic-programming solver returns a path, and that path
was built by valid steps only. -/
theorem dyn_prog_wf (g : grid) (hr : 0 < g.rows) (hc : 0 < g.columns) :
    ∃ q, crane_unloading_dyn_prog g = some q ∧ q.wf g := by
  obtain ⟨a, ha⟩ : ∃ a, g.rows = a + 1 := ⟨g.rows - 1, by omega⟩
  obtain ⟨b, hb⟩ : ∃ b, g.columns = b + 1 := ⟨g.columns - 1, by omega⟩
  obtain ⟨ds, hds⟩ := backtrace_total g (g.rows + g.columns - 2) a b [] (by omega) (by omega)
  obtain ⟨q, h1, h2⟩ := replay_wf g ds (path.init g) (wf_init g)
  refine ⟨q, ?_, h2⟩
  rw [← ha, ← hb] at hds
  simp only [crane_unloading_dyn_prog, hr, hc, and_self, if_true, fill_table_eq]
  rw [← dp_table, hds]
  exact h1

/-- Within its precondition the exhaustive solver returns a path, and that path was
built by valid steps only. -/
theorem exhaustive_wf (g : grid) (hr : 0 < g.rows) (hc : 0 < g.columns)
    (hb : g.rows + g.columns - 2 < 64) :
    ∃ p, crane_unloading_exhaustive g = some p ∧ p.wf g := by
  by_cases hpos : 0 < g.rows + g.columns - 2
  · obtain ⟨b, FM, h1, h2, h3, _⟩ := exhaustive_spec g hr hc hb hpos
    refine ⟨b, h2, ?_⟩
    rcases h3 with rfl | h3
    · exact wf_init g
    · exact ((h1 b).mp h3).1
  · exact ⟨path.init g, exhaustive_single g hr hc (by omega), wf_init g⟩

/-! ## Routes and the full-length frontier -/

theorem origin_passable_of_route (g : grid) (s : List step_direction)
    (h : monotonic_route g s) : passable g (0, 0) = true := by
  apply h.1
  rw [visited_eq_cons]
  exact List.mem_cons_self _ _

theorem of_steps_mem_level (g : grid) (FM : List path) (hr : 0 < g.rows) (hc : 0 < g.columns)
    (hlev : is_level g (g.rows + g.columns - 2) FM) (s : List step_direction)
    (h : monotonic_route g s) : path.of_steps g s ∈ FM :=
  (hlev _).mpr ⟨wf_of_steps g s (steps_valid_of_route g s h), route_length g s hr hc h⟩

theorem route_of_mem_level (g : grid) (FM : List path) (hpos : 0 < g.rows + g.columns - 2)
    (hlev : is_level g (g.rows + g.columns - 2) FM) (p : path) (hp : p ∈ FM)
    (ho : passable g (0, 0) = true) :
    monotonic_route g p.steps ∧ crane_count g p.steps = p.total_cranes := by
  obtain ⟨hw, hl⟩ := (hlev p).mp hp
  have hd := at_destination_of_full g p hw hpos hl
  simp only [path.at_destination, decide_eq_true_eq] at hd
  have h1 := hw.1
  have hrow : p.final_row = (end_cell p.steps).1 := by
    conv_lhs => rw [h1]
    rfl
  have hcol : p.final_column = (end_cell p.steps).2 := by
    conv_lhs => rw [h1]
    rfl
  have htot : p.total_cranes = crane_count g p.steps := by
    conv_lhs => rw [h1]
    rfl
  refine ⟨⟨?_, ?_⟩, htot.symm⟩
  · intro c hc
    rw [visited_eq_cons] at hc
    rcases List.mem_cons.mp hc with rfl | hc
    · exact ho
    · exact hw.2 c hc
  · apply Prod.ext
    · simp only; omega
    · simp only; omega

/-! ## The table bounds every route from below -/

theorem passable_iff (g : grid) (c : Nat × Nat) :
    passable g c = true ↔ (c.1 < g.rows ∧ c.2 < g.columns) ∧ g.cells c.1 c.2 ≠ CELL_BUILDING := by
  unfold passable grid.get
  by_cases h : c.1 < g.rows ∧ c.2 < g.columns
  · simp [h]
  · simp [h]

theorem is_crane_iff (g : grid) (c : Nat × Nat) :
    is_crane g c = true ↔ (c.1 < g.rows ∧ c.2 < g.columns) ∧ g.cells c.1 c.2 = CELL_CRANE := by
  unfold is_crane grid.get
  by_cases h : c.1 < g.rows ∧ c.2 < g.columns
  · simp [h]
  · simp [h]

theorem cell_value_of_passable (g : grid) (i j : Nat) (up left : Int)
    (h : g.cells (i - 1) (j - 1) ≠ CELL_BUILDING) :
    cell_value g i j up left =
      (if i = 1 ∧ j = 1 then 1 else 0) + (if g.cells (i - 1) (j - 1) = CELL_CRANE then 1 else 0)
        + (if up > left then up else left) := by
  unfold cell_value
  rw [if_neg h]
  split_ifs <;> ring

/-- The number a passable cell adds to the crane count of a path entering it. -/
theorem crane_bonus (g : grid) (c : Nat × Nat) (h : passable g c = true) :
    (if is_crane g c = true then (1 : Int) else 0) =
      (if g.cells c.1 c.2 = CELL_CRANE then 1 else 0) := by
  have hb := ((passable_iff g c).mp h).1
  by_cases hc : g.cells c.1 c.2 = CELL_CRANE
  · have : is_crane g c = true := (is_crane_iff g c).mpr ⟨hb, hc⟩
    simp [this, hc]
  · have : ¬ is_crane g c = true := fun h2 => hc ((is_crane_iff g c).mp h2).2
    simp [this, hc]

/-- The slot of the cell a route ends in holds at least the crane count of the route
plus 1, on every grid. -/
theorem dp_lower (g : grid) (s : List step_direction)
    (h : ∀ c ∈ visited s, passable g c = true) :
    (crane_count g s : Int) + 1 ≤ dp g ((end_cell s).1 + 1) ((end_cell s).2 + 1) := by
  induction s using List.reverseRecOn with
  | nil =>
    have h0 : passable g (0, 0) = true := h _ (by simp [visited, cells_from])
    have hb := ((passable_iff g (0, 0)).mp h0).2
    have hc := crane_bonus g (0, 0) h0
    have hcount : crane_count g [] = (if is_crane g (0, 0) = true then 1 else 0) := by
      simp [crane_count, visited, cells_from, List.countP_cons]
    simp only [end_cell, List.foldl_nil]
    have hcount1 : (crane_count g [] : Int) = (if g.cells 0 0 = CELL_CRANE then 1 else 0) := by
      rw [hcount, ← hc]
      split_ifs <;> rfl
    rw [dp_succ, cell_value_of_passable g 1 1 _ _ (by simpa using hb), hcount1]
    simp only [dp_zero_left, dp_zero_right, Nat.sub_self, and_self, if_true, gt_iff_lt,
      lt_self_iff_false, if_false]
    split_ifs <;> omega
  | append_singleton s d ih =>
    have hs : ∀ c ∈ visited s, passable g c = true := fun c hc =>
      h c (by rw [visited_snoc]; exact List.mem_append_left _ hc)
    have hlast : passable g (move (end_cell s) d) = true :=
      h _ (by rw [visited_snoc]; simp)
    have ih1 := ih hs
    have hb := ((passable_iff g _).mp hlast).2
    have hc := crane_bonus g _ hlast
    rw [crane_count_snoc, end_cell_snoc]
    push_cast
    rw [hc]
    cases d with
    | STEP_DIRECTION_EAST =>
      simp only [move] at hb ⊢
      rw [dp_succ, cell_value_of_passable g _ _ _ _ (by simpa using hb)]
      simp only [Nat.add_sub_cancel]
      split_ifs <;> omega
    | STEP_DIRECTION_SOUTH =>
      simp only [move] at hb ⊢
      rw [dp_succ, cell_value_of_passable g _ _ _ _ (by simpa using hb)]
      simp only [Nat.add_sub_cancel]
      split_ifs <;> omega

/-- A route never leaves the rectangle spanned by the origin and its last cell. -/
theorem visited_le_end (s : List step_direction) :
    ∀ c ∈ visited s, c.1 ≤ (end_cell s).1 ∧ c.2 ≤ (end_cell s).2 := by
  induction s using List.reverseRecOn with
  | nil =>
    intro c hc
    simp [visited, cells_from] at hc
    subst hc
    simp [end_cell]
  | append_singleton s d ih =>
    intro c hc
    rw [visited_snoc] at hc
    rw [end_cell_snoc]
    have hm : (end_cell s).1 ≤ (move (end_cell s) d).1 ∧ (end_cell s).2 ≤ (move (end_cell s) d).2 := by
      cases d <;> simp [move]
    rcases List.mem_append.mp hc with hc | hc
    · have := ih c hc
      omega
    · simp at hc
      subst hc
      omega

theorem passable_of_building_free (g : grid) (hbf : building_free g) (c : Nat × Nat)
    (h1 : c.1 < g.rows) (h2 : c.2 < g.columns) : passable g c = true :=
  (passable_iff g c).mpr ⟨⟨h1, h2⟩, hbf c.1 c.2 h1 h2⟩

/-- On a grid without buildings every word that ends inside the grid is a route to its
last cell. -/
theorem visited_passable_of_building_free (g : grid) (hbf : building_free g)
    (s : List step_direction) (h1 : (end_cell s).1 < g.rows) (h2 : (end_cell s).2 < g.columns) :
    ∀ c ∈ visited s, passable g c = true := by
  intro c hc
  have := visited_le_end s c hc
  exact passable_of_building_free g hbf c (by omega) (by omega)

theorem end_cell_replicate (a b : Nat) :
    end_cell (List.replicate b STEP_DIRECTION_EAST ++ List.replicate a STEP_DIRECTION_SOUTH)
      = (a, b) := by
  have hE : ∀ (n : Nat) (c : Nat × Nat),
      (List.replicate n STEP_DIRECTION_EAST).foldl move c = (c.1, c.2 + n) := by
    intro n
    induction n with
    | zero => intro c; simp
    | succ n ih =>
      intro c
      simp only [List.replicate_succ, List.foldl_cons, ih, move]
      exact Prod.ext rfl (by simp; omega)
  have hS : ∀ (n : Nat) (c : Nat × Nat),
      (List.replicate n STEP_DIRECTION_SOUTH).foldl move c = (c.1 + n, c.2) := by
    intro n
    induction n with
    | zero => intro c; simp
    | succ n ih =>
      intro c
      simp only [List.replicate_succ, List.foldl_cons, ih, move]
      exact Prod.ext (by simp; omega) rfl
  simp [end_cell, List.foldl_append, hE, hS]

/-- On a grid without buildings every slot of a cell holds at least 1. -/
theorem dp_pos (g : grid) (hbf : building_free g) (a b : Nat) (ha : a < g.rows)
    (hb : b < g.columns) : 1 ≤ dp g (a + 1) (b + 1) := by
  have he := end_cell_replicate a b
  have h := dp_lower g _ (visited_passable_of_building_free g hbf
    (List.replicate b STEP_DIRECTION_EAST ++ List.replicate a STEP_DIRECTION_SOUTH)
    (by rw [he]; exact ha) (by rw [he]; exact hb))
  rw [he] at h
  simp only at h
  omega

/-! ## One iteration of the backtrace on the filled table -/

theorem both_blocked_dp (g : grid) (a b : Nat) (ha : a < g.rows) (hb : b < g.columns) :
    both_blocked (dp_table g) ((a + 1 : Nat) : Int) ((b + 1 : Nat) : Int) =
      some (decide (dp g a (b + 1) = -1 ∧ dp g (a + 1) b = -1)) := by
  have hup : (dp_table g).read (a : Int) ((b + 1 : Nat) : Int) = some (dp g a (b + 1)) :=
    dp_table_read g a (b + 1) (by omega) (by omega)
  have hleft : (dp_table g).read ((a + 1 : Nat) : Int) (b : Int) = some (dp g (a + 1) b) :=
    dp_table_read g (a + 1) b (by omega) (by omega)
  simp only [both_blocked, cast_succ_sub_one, hup, hleft]
  by_cases h1 : dp g a (b + 1) = -1
  · rw [if_pos h1]
    by_cases h2 : dp g (a + 1) b = -1
    · rw [decide_eq_true h2, decide_eq_true (And.intro h1 h2)]
    · rw [decide_eq_false h2, decide_eq_false (fun h => h2 h.2)]
  · rw [if_neg h1, decide_eq_false (fun h => h1 h.1)]

theorem south_chosen_dp (g : grid) (a b : Nat) (ha : a < g.rows) (hb : b < g.columns) :
    south_chosen (dp_table g) ((a + 1 : Nat) : Int) ((b + 1 : Nat) : Int) =
      some (decide (dp g a (b + 1) ≥ dp g (a + 1) b ∧ a ≠ 0)) := by
  have hup : (dp_table g).read (a : Int) ((b + 1 : Nat) : Int) = some (dp g a (b + 1)) :=
    dp_table_read g a (b + 1) (by omega) (by omega)
  have hleft : (dp_table g).read ((a + 1 : Nat) : Int) (b : Int) = some (dp g (a + 1) b) :=
    dp_table_read g (a + 1) b (by omega) (by omega)
  have hx : (((a + 1 : Nat) : Int) ≠ 1) ↔ a ≠ 0 := by
    push_cast
    omega
  simp only [south_chosen, cast_succ_sub_one, hup, hleft]
  congr 1
  rw [Bool.decide_and, decide_eq_decide.mpr hx]

/-- One iteration of the backtrace at the slot of the cell `(a, b)`, in terms of the
recurrence. -/
theorem backtrace_dp_table (g : grid) (n a b : Nat) (ds : List step_direction)
    (ha : a < g.rows) (hb : b < g.columns) :
    backtrace (dp_table g) (n + 1) ((a + 1 : Nat) : Int) ((b + 1 : Nat) : Int) ds =
      if dp g a (b + 1) = -1 ∧ dp g (a + 1) b = -1 then
        backtrace (dp_table g) n (a : Int) (b : Int) ds
      else if dp g (a + 1) (b + 1) = -1 then some ds
      else if dp g a (b + 1) ≥ dp g (a + 1) b ∧ a ≠ 0 then
        backtrace (dp_table g) n (a : Int) ((b + 1 : Nat) : Int) (STEP_DIRECTION_SOUTH :: ds)
      else if b ≠ 0 then
        backtrace (dp_table g) n ((a + 1 : Nat) : Int) (b : Int) (STEP_DIRECTION_EAST :: ds)
      else backtrace (dp_table g) n ((a + 1 : Nat) : Int) ((b + 1 : Nat) : Int) ds := by
  have hhere : (dp_table g).read ((a + 1 : Nat) : Int) ((b + 1 : Nat) : Int)
      = some (dp g (a + 1) (b + 1)) :=
    dp_table_read g (a + 1) (b + 1) (by omega) (by omega)
  have hy : (((b + 1 : Nat) : Int) ≠ 1) ↔ b ≠ 0 := by
    push_cast
    omega
  rw [backtrace, both_blocked_dp g a b ha hb, south_chosen_dp g a b ha hb, hhere]
  by_cases h1 : dp g a (b + 1) = -1 ∧ dp g (a + 1) b = -1
  · rw [if_pos h1, decide_eq_true h1]
    simp only [cast_succ_sub_one]
  · rw [if_neg h1, decide_eq_false h1]
    simp only []
    by_cases h3 : dp g (a + 1) (b + 1) = -1
    · rw [if_pos h3, if_pos h3]
    · rw [if_neg h3, if_neg h3]
      by_cases h4 : dp g a (b + 1) ≥ dp g (a + 1) b ∧ a ≠ 0
      · rw [if_pos h4, decide_eq_true h4]
        simp only [cast_succ_sub_one]
      · rw [if_neg h4, decide_eq_false h4]
        simp only []
        by_cases h5 : b ≠ 0
        · rw [if_pos h5, if_pos (hy.mpr h5)]
          simp only [cast_succ_sub_one]
        · rw [if_neg h5, if_neg (fun h => h5 (hy.mp h))]

/-! ## The replay of a list of valid steps -/

theorem replay_append (g : grid) (w1 w2 : List step_direction) (p : path) :
    replay g (w1 ++ w2) p = (replay g w1 p).bind (replay g w2) := by
  induction w1 generalizing p with
  | nil => rfl
  | cons d w1 ih =>
    simp only [List.cons_append, replay]
    by_cases hv : p.is_step_valid g d = true
    · simp only [hv, if_true]
      cases hq : p.add_step g d with
      | none => rfl
      | some p1 => exact ih p1
    · simp only [hv, if_false]
      exact ih p

/-- Replaying steps that are all valid adds every one of them. -/
theorem replay_valid (g : grid) (s0 w : List step_direction) (h : steps_valid g (s0 ++ w)) :
    replay g w (path.of_steps g s0) = some (path.of_steps g (s0 ++ w)) := by
  induction w using List.reverseRecOn with
  | nil => simp [replay]
  | append_singleton w d ih =>
    rw [← List.append_assoc, steps_valid_snoc] at h
    rw [replay_append, ih h.1]
    have hv : (path.of_steps g (s0 ++ w)).is_step_valid g d = true := by
      rw [is_step_valid_eq]
      exact h.2
    simp only [Option.some_bind, replay, hv, if_true, add_step_of_steps g (s0 ++ w) d h.2,
      List.append_assoc]

theorem dyn_prog_eq (g : grid) (hr : 0 < g.rows) (hc : 0 < g.columns)
    (ds : List step_direction)
    (h : backtrace (dp_table g) (g.rows + g.columns - 2) (g.rows : Int) (g.columns : Int) []
      = some ds) :
    crane_unloading_dyn_prog g = replay g ds (path.init g) := by
  simp only [crane_unloading_dyn_prog, hr, hc, and_self, if_true, fill_table_eq]
  rw [← dp_table, h]

/-! ## The dynamic-programming solver on a grid without buildings -/

theorem dp_origin (g : grid) (h : g.cells 0 0 ≠ CELL_BUILDING) :
    dp g 1 1 = 1 + (if g.cells 0 0 = CELL_CRANE then 1 else 0) := by
  rw [dp_succ, cell_value_of_passable g 1 1 _ _ (by simpa using h)]
  simp only [dp_zero_left, dp_zero_right, Nat.sub_self, and_self, if_true, gt_iff_lt,
    lt_self_iff_false, if_false]
  ring

theorem dp_succ_of_passable (g : grid) (a b : Nat) (h : g.cells a b ≠ CELL_BUILDING)
    (hne : ¬ (a = 0 ∧ b = 0)) :
    dp g (a + 1) (b + 1) = (if g.cells a b = CELL_CRANE then 1 else 0) +
      (if dp g a (b + 1) > dp g (a + 1) b then dp g a (b + 1) else dp g (a + 1) b) := by
  rw [dp_succ, cell_value_of_passable g _ _ _ _ (by simpa using h)]
  have h1 : ¬ (a + 1 = 1 ∧ b + 1 = 1) := by omega
  simp only [h1, if_false, Nat.add_sub_cancel, zero_add]

theorem crane_count_empty (g : grid) (h : passable g (0, 0) = true) :
    (crane_count g [] : Int) = (if g.cells 0 0 = CELL_CRANE then 1 else 0) := by
  have hc := crane_bonus g (0, 0) h
  have hcount : crane_count g [] = (if is_crane g (0, 0) = true then 1 else 0) := by
    simp [crane_count, visited, cells_from, List.countP_cons]
  rw [hcount, ← hc]
  split_ifs <;> rfl

theorem crane_count_snoc_cast (g : grid) (s : List step_direction) (d : step_direction)
    (h : passable g (move (end_cell s) d) = true) :
    (crane_count g (s ++ [d]) : Int) = crane_count g s +
      (if g.cells (move (end_cell s) d).1 (move (end_cell s) d).2 = CELL_CRANE then 1 else 0) := by
  rw [crane_count_snoc, ← crane_bonus g _ h]
  push_cast
  rfl

/-- On a grid without buildings the border slots hold 0 and the others at least 1. -/
theorem dp_nonneg (g : grid) (hbf : building_free g) (a b : Nat) (ha : a ≤ g.rows)
    (hb : b ≤ g.columns) : 0 ≤ dp g a b := by
  cases a with
  | zero => simp [dp_zero_left]
  | succ a =>
    cases b with
    | zero => simp [dp_zero_right]
    | succ b =>
      have := dp_pos g hbf a b (by omega) (by omega)
      omega

/-- On a grid without buildings the backtrace from the slot of the cell `(a, b)`, given
at least `a + b` iterations, records a route from the origin to `(a, b)` whose crane
count plus 1 is the value of the slot. -/
theorem backtrace_building_free (g : grid) (hbf : building_free g) :
    ∀ (n a b : Nat) (ds : List step_direction), a < g.rows → b < g.columns → a + b ≤ n →
      ∃ w, backtrace (dp_table g) n ((a + 1 : Nat) : Int) ((b + 1 : Nat) : Int) ds
          = some (w ++ ds) ∧
        end_cell w = (a, b) ∧ (crane_count g w : Int) + 1 = dp g (a + 1) (b + 1) := by
  have horigin : ∀ (_ : 0 < g.rows) (_ : 0 < g.columns),
      (crane_count g [] : Int) + 1 = dp g 1 1 := by
    intro h1 h2
    rw [dp_origin g (hbf 0 0 h1 h2),
      crane_count_empty g (passable_of_building_free g hbf (0, 0) h1 h2)]
    ring
  intro n
  induction n with
  | zero =>
    intro a b ds ha hb hn
    obtain ⟨rfl, rfl⟩ : a = 0 ∧ b = 0 := by omega
    exact ⟨[], rfl, rfl, horigin ha hb⟩
  | succ n ih =>
    intro a b ds ha hb hn
    have hup := dp_nonneg g hbf a (b + 1) (by omega) (by omega)
    have hleft := dp_nonneg g hbf (a + 1) b (by omega) (by omega)
    have hhere := dp_pos g hbf a b ha hb
    rw [backtrace_dp_table g n a b ds ha hb, if_neg (by omega), if_neg (by omega)]
    by_cases hs : dp g a (b + 1) ≥ dp g (a + 1) b ∧ a ≠ 0
    · rw [if_pos hs]
      obtain ⟨a1, rfl⟩ : ∃ a1, a = a1 + 1 := ⟨a - 1, by omega⟩
      obtain ⟨w, h1, h2, h3⟩ := ih a1 b (STEP_DIRECTION_SOUTH :: ds) (by omega) hb (by omega)
      have hpass : passable g (move (end_cell w) STEP_DIRECTION_SOUTH) = true := by
        rw [h2]
        exact passable_of_building_free g hbf _ ha hb
      refine ⟨w ++ [STEP_DIRECTION_SOUTH], ?_, ?_, ?_⟩
      · rw [h1]; simp
      · rw [end_cell_snoc, h2]; rfl
      · rw [crane_count_snoc_cast g w _ hpass, h2,
          dp_succ_of_passable g (a1 + 1) b (hbf _ _ ha hb) (by omega)]
        simp only [move]
        split_ifs <;> omega
    · rw [if_neg hs]
      by_cases hb0 : b ≠ 0
      · rw [if_pos hb0]
        obtain ⟨b1, rfl⟩ : ∃ b1, b = b1 + 1 := ⟨b - 1, by omega⟩
        obtain ⟨w, h1, h2, h3⟩ := ih a b1 (STEP_DIRECTION_EAST :: ds) ha (by omega) (by omega)
        have hpass : passable g (move (end_cell w) STEP_DIRECTION_EAST) = true := by
          rw [h2]
          exact passable_of_building_free g hbf _ ha hb
        have hlt : dp g a (b1 + 1 + 1) < dp g (a + 1) (b1 + 1) := by
          by_cases ha0 : a = 0
          · subst ha0
            have := dp_pos g hbf 0 b1 ha (by omega)
            simp only [dp_zero_left]
            omega
          · by_contra hge
            exact hs ⟨by omega, ha0⟩
        refine ⟨w ++ [STEP_DIRECTION_EAST], ?_, ?_, ?_⟩
        · rw [h1]; simp
        · rw [end_cell_snoc, h2]; rfl
        · rw [crane_count_snoc_cast g w _ hpass, h2,
            dp_succ_of_passable g a (b1 + 1) (hbf _ _ ha hb) (by omega)]
          simp only [move]
          split_ifs <;> omega
      · rw [if_neg hb0]
        have hb1 : b = 0 := by omega
        subst hb1
        by_cases ha0 : a = 0
        · subst ha0
          exact ih 0 0 ds ha hb (by omega)
        · exfalso
          obtain ⟨a1, rfl⟩ : ∃ a1, a = a1 + 1 := ⟨a - 1, by omega⟩
          have := dp_pos g hbf a1 0 (by omega) hb
          apply hs
          simp only [dp_zero_right]
          exact ⟨by omega, by omega⟩

/-- On a grid without buildings the dynamic-programming solver returns the path of a
route to the destination whose crane count plus 1 is the value of the last slot. -/
theorem dyn_prog_building_free (g : grid) (hr : 0 < g.rows) (hc : 0 < g.columns)
    (hbf : building_free g) :
    ∃ w, crane_unloading_dyn_prog g = some (path.of_steps g w) ∧ monotonic_route g w ∧
      (crane_count g w : Int) + 1 = dp g g.rows g.columns := by
  obtain ⟨a, ha⟩ : ∃ a, g.rows = a + 1 := ⟨g.rows - 1, by omega⟩
  obtain ⟨b, hb⟩ : ∃ b, g.columns = b + 1 := ⟨g.columns - 1, by omega⟩
  obtain ⟨w, h1, h2, h3⟩ := backtrace_building_free g hbf (g.rows + g.columns - 2) a b []
    (by omega) (by omega) (by omega)
  rw [List.append_nil, ← ha, ← hb] at h1
  have hv : ∀ c ∈ visited w, passable g c = true :=
    visited_passable_of_building_free g hbf w (by rw [h2]; simp; omega) (by rw [h2]; simp; omega)
  have hroute : monotonic_route g w := ⟨hv, by rw [h2, ha, hb]; rfl⟩
  refine ⟨w, ?_, hroute, by rw [ha, hb]; exact h3⟩
  rw [dyn_prog_eq g hr hc w h1, init_eq_of_steps]
  have := replay_valid g [] w (by simpa using steps_valid_of_route g w hroute)
  simpa using this

/-! ## Grids of open cells only and grids of cranes only -/

theorem building_free_of_open (g : grid)
    (h : ∀ r c, r < g.rows → c < g.columns → g.cells r c = CELL_OPEN) : building_free g := by
  intro r c hr hc
  rw [h r c hr hc]
  decide

theorem building_free_of_crane (g : grid)
    (h : ∀ r c, r < g.rows → c < g.columns → g.cells r c = CELL_CRANE) : building_free g := by
  intro r c hr hc
  rw [h r c hr hc]
  decide

/-- On a grid of open cells every slot of a cell holds 1. -/
theorem dp_all_open (g : grid)
    (h : ∀ r c, r < g.rows → c < g.columns → g.cells r c = CELL_OPEN) :
    ∀ a, a < g.rows → ∀ b, b < g.columns → dp g (a + 1) (b + 1) = 1 := by
  have hbf := building_free_of_open g h
  have hopen : ∀ r c, r < g.rows → c < g.columns → ¬ g.cells r c = CELL_CRANE := by
    intro r c hr hc
    rw [h r c hr hc]
    decide
  intro a
  induction a with
  | zero =>
    intro ha b
    induction b with
    | zero =>
      intro hb
      rw [dp_origin g (hbf 0 0 ha hb), if_neg (hopen 0 0 ha hb)]
      rfl
    | succ b ihb =>
      intro hb
      have h1 := ihb (by omega)
      rw [dp_succ_of_passable g 0 (b + 1) (hbf _ _ ha hb) (by omega),
        if_neg (hopen _ _ ha hb), h1]
      simp [dp_zero_left]
  | succ a iha =>
    intro ha b
    induction b with
    | zero =>
      intro hb
      have h1 := iha (by omega) 0 hb
      rw [dp_succ_of_passable g (a + 1) 0 (hbf _ _ ha hb) (by omega),
        if_neg (hopen _ _ ha hb), h1]
      simp [dp_zero_right]
    | succ b ihb =>
      intro hb
      have h1 := iha (by omega) (b + 1) hb
      have h2 := ihb (by omega)
      rw [dp_succ_of_passable g (a + 1) (b + 1) (hbf _ _ ha hb) (by omega),
        if_neg (hopen _ _ ha hb), h1, h2]
      simp

/-- On a grid of open cells the backtrace goes up while it can and then left: it
records the route of `b` EAST steps followed by `a` SOUTH steps. -/
theorem backtrace_all_open (g : grid)
    (h : ∀ r c, r < g.rows → c < g.columns → g.cells r c = CELL_OPEN) :
    ∀ (n a b : Nat) (ds : List step_direction), a < g.rows → b < g.columns → a + b ≤ n →
      backtrace (dp_table g) n ((a + 1 : Nat) : Int) ((b + 1 : Nat) : Int) ds
        = some (List.replicate b STEP_DIRECTION_EAST ++ List.replicate a STEP_DIRECTION_SOUTH
            ++ ds) := by
  have hbf := building_free_of_open g h
  intro n
  induction n with
  | zero =>
    intro a b ds ha hb hn
    obtain ⟨rfl, rfl⟩ : a = 0 ∧ b = 0 := by omega
    rfl
  | succ n ih =>
    intro a b ds ha hb hn
    have hup := dp_nonneg g hbf a (b + 1) (by omega) (by omega)
    have hleft := dp_nonneg g hbf (a + 1) b (by omega) (by omega)
    have hhere := dp_all_open g h a ha b hb
    rw [backtrace_dp_table g n a b ds ha hb, if_neg (by omega), if_neg (by omega)]
    cases a with
    | zero =>
      rw [if_neg (by omega)]
      cases b with
      | zero =>
        rw [if_neg (by omega)]
        exact ih 0 0 ds ha hb (by omega)
      | succ b1 =>
        rw [if_pos (by omega), ih 0 b1 _ ha (by omega) (by omega)]
        simp [List.replicate_succ']
    | succ a1 =>
      have h1 : dp g (a1 + 1) (b + 1) = 1 := dp_all_open g h a1 (by omega) b hb
      have h2 : dp g (a1 + 1 + 1) b ≤ 1 := by
        cases b with
        | zero => simp [dp_zero_right]
        | succ b1 => rw [dp_all_open g h (a1 + 1) ha b1 (by omega)]
      rw [if_pos ⟨by omega, by omega⟩, ih a1 b _ (by omega) hb (by omega)]
      simp [List.replicate_succ']

/-- On a grid of cranes the crane count of a route is the number of its cells. -/
theorem crane_count_all_crane (g : grid)
    (h : ∀ r c, r < g.rows → c < g.columns → g.cells r c = CELL_CRANE)
    (s : List step_direction) (hs : ∀ c ∈ visited s, passable g c = true) :
    crane_count g s = s.length + 1 := by
  unfold crane_count
  rw [← cells_from_length (0, 0) s]
  apply List.countP_eq_length.mpr
  intro c hc
  have hb := ((passable_iff g c).mp (hs c hc)).1
  exact (is_crane_iff g c).mpr ⟨hb, h c.1 c.2 hb.1 hb.2⟩

/-! ## The exhaustive solver replaces its default only by a strictly better path -/

theorem drain_best (g : grid) (F : List path) :
    ∀ (best : path) (acc : List path) (b : path) (acc1 : List path),
      drain g F best acc = some (b, acc1) →
      b = best ∨ best.total_cranes < b.total_cranes := by
  induction F with
  | nil =>
    intro best acc b acc1 h
    simp only [drain, Option.some.injEq, Prod.mk.injEq] at h
    exact Or.inl h.1.symm
  | cons cur F ih =>
    intro best acc b acc1 h
    rw [drain] at h
    by_cases hd : cur.at_destination g = true
    · rw [if_pos hd] at h
      by_cases hlt : best.total_cranes < cur.total_cranes
      · rw [if_pos hlt] at h
        rcases ih _ _ _ _ h with h1 | h1
        · exact Or.inr (h1 ▸ hlt)
        · exact Or.inr (by omega)
      · rw [if_neg hlt] at h
        exact ih _ _ _ _ h
    · rw [if_neg hd] at h
      obtain ⟨a1, h1, _⟩ := push_if_valid_spec g cur STEP_DIRECTION_EAST acc
      obtain ⟨a2, h2, _⟩ := push_if_valid_spec g cur STEP_DIRECTION_SOUTH a1
      simp only [h1, h2] at h
      exact ih _ _ _ _ h

theorem exhaustive_loop_best (g : grid) :
    ∀ (n : Nat) (best : path) (F : List path) (b : path),
      (best = path.init g ∨ (path.init g).total_cranes < best.total_cranes) →
      exhaustive_loop g n best F = some b →
      (b = path.init g ∨ (path.init g).total_cranes < b.total_cranes) := by
  intro n
  induction n with
  | zero =>
    intro best F b hbest h
    simp only [exhaustive_loop, Option.some.injEq] at h
    exact h ▸ hbest
  | succ n ih =>
    intro best F b hbest h
    rw [exhaustive_loop] at h
    by_cases hd : best.at_destination g = true
    · rw [if_pos hd] at h
      simp only [Option.some.injEq] at h
      exact h ▸ hbest
    · rw [if_neg hd] at h
      cases hdr : drain g F best [] with
      | none => simp [hdr] at h
      | some r =>
        obtain ⟨b1, F1⟩ := r
        simp only [hdr] at h
        refine ih b1 F1 b ?_ h
        rcases drain_best g F best [] b1 F1 hdr with h1 | h1
        · exact h1 ▸ hbest
        · rcases hbest with h2 | h2
          · exact Or.inr (h2 ▸ h1)
          · exact Or.inr (by omega)

/-- The path the exhaustive solver returns is the empty path or has more cranes than
the empty path. -/
theorem exhaustive_best (g : grid) (b : path) (h : crane_unloading_exhaustive g = some b) :
    b = path.init g ∨ (path.init g).total_cranes < b.total_cranes := by
  unfold crane_unloading_exhaustive at h
  by_cases h1 : g.rows > 0 ∧ g.columns > 0
  · rw [if_pos h1] at h
    by_cases h2 : g.rows + g.columns - 2 < 64
    · simp only [h2, if_true] at h
      exact exhaustive_loop_best g _ _ _ b (Or.inl rfl) h
    · simp only [h2, if_false] at h
      exact Option.noConfusion h
  · rw [if_neg h1] at h
    exact Option.noConfusion h

/-! ## The size of the frontier -/

theorem box_words_le_choose : ∀ (k a b : Nat), box_words k a b ≤ Nat.choose (a + b) a := by
  intro k
  induction k with
  | zero =>
    intro a b
    exact Nat.choose_pos (by omega)
  | succ k ih =>
    intro a b
    rw [box_words]
    cases a with
    | zero =>
      cases b with
      | zero => simp
      | succ b1 =>
        have := ih 0 b1
        simp only [Nat.choose_zero_right] at this ⊢
        simpa using this
    | succ a1 =>
      cases b with
      | zero =>
        have := ih a1 0
        simp only [Nat.add_zero, Nat.choose_self] at this ⊢
        simpa using this
      | succ b1 =>
        have h1 := ih a1 (b1 + 1)
        have h2 := ih (a1 + 1) b1
        have hp : Nat.choose (a1 + 1 + (b1 + 1)) (a1 + 1) =
            Nat.choose (a1 + (b1 + 1)) a1 + Nat.choose (a1 + 1 + b1) (a1 + 1) := by
          have : a1 + 1 + (b1 + 1) = (a1 + (b1 + 1)) + 1 := by omega
          rw [this, Nat.choose_succ_succ]
          have : a1 + (b1 + 1) = a1 + 1 + b1 := by omega
          rw [this]
        rw [hp]
        simp only [Nat.zero_lt_succ, if_true, Nat.add_sub_cancel]
        omega

theorem weight_nil (g : grid) (k : Nat) : weight g k [] = 0 := rfl

theorem weight_cons (g : grid) (k : Nat) (p : path) (F : List path) :
    weight g k (p :: F) = continuations g k p + weight g k F := by
  simp [weight]

theorem weight_zero (g : grid) (F : List path) : weight g 0 F = F.length := by
  induction F with
  | nil => rfl
  | cons p F ih => rw [weight_cons, ih]; simp [continuations, box_words]; omega

/-- A pushed path continues in as many ways as its parent does through the step
taken. -/
theorem push_if_valid_weight (g : grid) (k : Nat) (cur : path) (d : step_direction)
    (acc acc1 : List path) (h : push_if_valid g cur d acc = some acc1) :
    weight g k acc1 ≤ weight g k acc +
      (match d with
        | STEP_DIRECTION_EAST =>
          if 0 < g.columns - 1 - cur.final_column then
            box_words k (g.rows - 1 - cur.final_row) (g.columns - 1 - cur.final_column - 1) else 0
        | STEP_DIRECTION_SOUTH =>
          if 0 < g.rows - 1 - cur.final_row then
            box_words k (g.rows - 1 - cur.final_row - 1) (g.columns - 1 - cur.final_column)
          else 0) := by
  unfold push_if_valid at h
  by_cases hv : cur.is_step_valid g d = true
  · rw [if_pos hv] at h
    have hadd : cur.add_step g d = some
        { steps := cur.steps ++ [d], final_row := (cur.target d).1,
          final_column := (cur.target d).2,
          total_cranes := cur.total_cranes +
            (if g.get (cur.target d).1 (cur.target d).2 = some CELL_CRANE then 1 else 0) } := by
      simp [path.add_step, hv]
    rw [hadd] at h
    simp only [Option.some.injEq] at h
    subst h
    rw [is_step_valid_eq] at hv
    have hb := passable_bounds g _ hv
    rw [weight_cons]
    cases d with
    | STEP_DIRECTION_EAST =>
      simp only [move] at hb
      have h1 : 0 < g.columns - 1 - cur.final_column := by omega
      have h2 : g.columns - 1 - (cur.final_column + 1) = g.columns - 1 - cur.final_column - 1 := by
        omega
      simp only [continuations, path.target, h1, if_true, h2]
      omega
    | STEP_DIRECTION_SOUTH =>
      simp only [move] at hb
      have h1 : 0 < g.rows - 1 - cur.final_row := by omega
      have h2 : g.rows - 1 - (cur.final_row + 1) = g.rows - 1 - cur.final_row - 1 := by
        omega
      simp only [continuations, path.target, h1, if_true, h2]
      omega
  · rw [if_neg hv] at h
    simp only [Option.some.injEq] at h
    subst h
    omega

/-- Draining a level: the next level continues in at most as many ways by `k` steps as
the drained level does by `k + 1` steps. -/
theorem drain_weight (g : grid) (k : Nat) (F : List path) :
    ∀ (best : path) (acc : List path) (b : path) (acc1 : List path),
      drain g F best acc = some (b, acc1) →
      weight g k acc1 ≤ weight g k acc + weight g (k + 1) F := by
  induction F with
  | nil =>
    intro best acc b acc1 h
    simp only [drain, Option.some.injEq, Prod.mk.injEq] at h
    rw [← h.2, weight_nil]
    omega
  | cons cur F ih =>
    intro best acc b acc1 h
    rw [drain] at h
    rw [weight_cons]
    by_cases hd : cur.at_destination g = true
    · rw [if_pos hd] at h
      by_cases hlt : best.total_cranes < cur.total_cranes
      · rw [if_pos hlt] at h
        have := ih _ _ _ _ h
        omega
      · rw [if_neg hlt] at h
        have := ih _ _ _ _ h
        omega
    · rw [if_neg hd] at h
      obtain ⟨a1, h1, _⟩ := push_if_valid_spec g cur STEP_DIRECTION_EAST acc
      obtain ⟨a2, h2, _⟩ := push_if_valid_spec g cur STEP_DIRECTION_SOUTH a1
      simp only [h1, h2] at h
      have w1 := push_if_valid_weight g k cur _ acc a1 h1
      have w2 := push_if_valid_weight g k cur _ a1 a2 h2
      have w3 := ih _ _ _ _ h
      simp only at w1 w2
      have hc : continuations g (k + 1) cur =
          (if 0 < g.rows - 1 - cur.final_row then
            box_words k (g.rows - 1 - cur.final_row - 1) (g.columns - 1 - cur.final_column)
          else 0) +
          (if 0 < g.columns - 1 - cur.final_column then
            box_words k (g.rows - 1 - cur.final_row) (g.columns - 1 - cur.final_column - 1)
          else 0) := by
        rw [continuations, box_words]
      omega

/-- Every value `all_paths` takes at a level boundary is within the bound, given that
the starting frontier continues in at most `C` ways by any number of steps. -/
theorem frontiers_length_le (g : grid) (C : Nat) :
    ∀ (n : Nat) (best : path) (F : List path), (∀ k, weight g k F ≤ C) →
      ∀ F1 ∈ frontiers g n best F, F1.length ≤ C := by
  intro n
  induction n with
  | zero =>
    intro best F hF F1 h1
    simp only [frontiers, List.mem_singleton] at h1
    rw [h1, ← weight_zero g F]
    exact hF 0
  | succ n ih =>
    intro best F hF F1 h1
    have hlen : F.length ≤ C := by
      rw [← weight_zero g F]
      exact hF 0
    rw [frontiers] at h1
    by_cases hd : best.at_destination g = true
    · rw [if_pos hd] at h1
      simp only [List.mem_singleton] at h1
      rw [h1]
      exact hlen
    · rw [if_neg hd] at h1
      cases hdr : drain g F best [] with
      | none =>
        simp only [hdr, List.mem_singleton] at h1
        rw [h1]
        exact hlen
      | some r =>
        obtain ⟨b1, F2⟩ := r
        simp only [hdr, List.mem_cons] at h1
        rcases h1 with h1 | h1
        · rw [h1]
          exact hlen
        · refine ih b1 F2 ?_ F1 h1
          intro k
          have := drain_weight g k F best [] b1 F2 hdr
          rw [weight_nil] at this
          have := hF (k + 1)
          omega

/-! ## The states of the backtrace -/

theorem backtrace_states_dp_table (g : grid) (n a b : Nat) (ha : a < g.rows)
    (hb : b < g.columns) :
    backtrace_states (dp_table g) (n + 1) ((a + 1 : Nat) : Int) ((b + 1 : Nat) : Int) =
      (((a + 1 : Nat) : Int), ((b + 1 : Nat) : Int)) ::
      (if dp g a (b + 1) = -1 ∧ dp g (a + 1) b = -1 then
        backtrace_states (dp_table g) n (a : Int) (b : Int)
      else if dp g (a + 1) (b + 1) = -1 then []
      else if dp g a (b + 1) ≥ dp g (a + 1) b ∧ a ≠ 0 then
        backtrace_states (dp_table g) n (a : Int) ((b + 1 : Nat) : Int)
      else if b ≠ 0 then
        backtrace_states (dp_table g) n ((a + 1 : Nat) : Int) (b : Int)
      else backtrace_states (dp_table g) n ((a + 1 : Nat) : Int) ((b + 1 : Nat) : Int)) := by
  have hhere : (dp_table g).read ((a + 1 : Nat) : Int) ((b + 1 : Nat) : Int)
      = some (dp g (a + 1) (b + 1)) :=
    dp_table_read g (a + 1) (b + 1) (by omega) (by omega)
  have hy : (((b + 1 : Nat) : Int) ≠ 1) ↔ b ≠ 0 := by
    push_cast
    omega
  rw [backtrace_states, both_blocked_dp g a b ha hb, south_chosen_dp g a b ha hb, hhere]
  congr 1
  by_cases h1 : dp g a (b + 1) = -1 ∧ dp g (a + 1) b = -1
  · rw [if_pos h1, decide_eq_true h1]
    simp only [cast_succ_sub_one]
  · rw [if_neg h1, decide_eq_false h1]
    simp only []
    by_cases h3 : dp g (a + 1) (b + 1) = -1
    · rw [if_pos h3, if_pos h3]
    · rw [if_neg h3, if_neg h3]
      by_cases h4 : dp g a (b + 1) ≥ dp g (a + 1) b ∧ a ≠ 0
      · rw [if_pos h4, decide_eq_true h4]
        simp only [cast_succ_sub_one]
      · rw [if_neg h4, decide_eq_false h4]
        simp only []
        by_cases h5 : b ≠ 0
        · rw [if_pos h5, if_pos (hy.mpr h5)]
          simp only [cast_succ_sub_one]
        · rw [if_neg h5, if_neg (fun h => h5 (hy.mp h))]

/-- Every state of the backtrace started at the slot of a cell is the slot of a
cell. -/
theorem backtrace_states_in_range (g : grid) :
    ∀ (n a b : Nat), a < g.rows → b < g.columns →
      ∀ p ∈ backtrace_states (dp_table g) n ((a + 1 : Nat) : Int) ((b + 1 : Nat) : Int),
        ∃ a1 b1, a1 < g.rows ∧ b1 < g.columns ∧
          p = (((a1 + 1 : Nat) : Int), ((b1 + 1 : Nat) : Int)) := by
  intro n
  induction n with
  | zero =>
    intro a b _ _ p hp
    simp [backtrace_states] at hp
  | succ n ih =>
    intro a b ha hb p hp
    rw [backtrace_states_dp_table g n a b ha hb] at hp
    rcases List.mem_cons.mp hp with hp | hp
    · exact ⟨a, b, ha, hb, hp⟩
    · by_cases h1 : dp g a (b + 1) = -1 ∧ dp g (a + 1) b = -1
      · rw [if_pos h1] at hp
        obtain ⟨a1, rfl⟩ : ∃ a1, a = a1 + 1 :=
          ⟨a - 1, by
            cases a with
            | zero => simp [dp_zero_left] at h1
            | succ k => simp⟩
        obtain ⟨b1, rfl⟩ : ∃ b1, b = b1 + 1 :=
          ⟨b - 1, by
            cases b with
            | zero => simp [dp_zero_right] at h1
            | succ k => simp⟩
        exact ih a1 b1 (by omega) (by omega) p hp
      · rw [if_neg h1] at hp
        by_cases h3 : dp g (a + 1) (b + 1) = -1
        · rw [if_pos h3] at hp
          simp at hp
        · rw [if_neg h3] at hp
          by_cases h4 : dp g a (b + 1) ≥ dp g (a + 1) b ∧ a ≠ 0
          · rw [if_pos h4] at hp
            obtain ⟨a1, rfl⟩ : ∃ a1, a = a1 + 1 := ⟨a - 1, by omega⟩
            exact ih a1 b (by omega) hb p hp
          · rw [if_neg h4] at hp
            by_cases h5 : b ≠ 0
            · rw [if_pos h5] at hp
              obtain ⟨b1, rfl⟩ : ∃ b1, b = b1 + 1 := ⟨b - 1, by omega⟩
              exact ih a b1 ha (by omega) p hp
            · rw [if_neg h5] at hp
              exact ih a b ha hb p hp

/-- Line 140 fires only at a slot whose row and column index are at least 2: the
border row and column hold 0. -/
theorem both_blocked_bounds (g : grid) (a b : Nat) (ha : a < g.rows) (hb : b < g.columns)
    (h : both_blocked (dp_table g) ((a + 1 : Nat) : Int) ((b + 1 : Nat) : Int) = some true) :
    1 ≤ a ∧ 1 ≤ b := by
  rw [both_blocked_dp g a b ha hb] at h
  simp only [Option.some.injEq, decide_eq_true_eq] at h
  constructor
  · cases a with
    | zero => simp [dp_zero_left] at h
    | succ k => omega
  · cases b with
    | zero => simp [dp_zero_right] at h
    | succ k => omega

/-! ## Further lemmas on routes -/

/-- On a grid without buildings the EAST steps followed by the SOUTH steps are a route
to the destination. -/
theorem route_of_building_free (g : grid) (hr : 0 < g.rows) (hc : 0 < g.columns)
    (hbf : building_free g) :
    monotonic_route g (List.replicate (g.columns - 1) STEP_DIRECTION_EAST ++
      List.replicate (g.rows - 1) STEP_DIRECTION_SOUTH) := by
  have he := end_cell_replicate (g.rows - 1) (g.columns - 1)
  exact ⟨visited_passable_of_building_free g hbf _ (by rw [he]; simp; omega)
    (by rw [he]; simp; omega), he⟩

theorem origin_passable (g : grid) (hr : 0 < g.rows) (hc : 0 < g.columns)
    (h : g.cells 0 0 ≠ CELL_BUILDING) : passable g (0, 0) = true :=
  (passable_iff g (0, 0)).mpr ⟨⟨hr, hc⟩, h⟩

theorem visited_tail_pos (s : List step_direction) :
    ∀ c ∈ (visited s).tail, 1 ≤ c.1 + c.2 := by
  induction s using List.reverseRecOn with
  | nil =>
    intro c hc
    simp [visited, cells_from] at hc
  | append_singleton s d ih =>
    intro c hc
    rw [visited_tail_snoc] at hc
    rcases List.mem_append.mp hc with hc | hc
    · exact ih c hc
    · simp at hc
      subst hc
      rw [move_sum]
      omega

/-- When the only crane, if any, is at the origin, every path counts what the empty
path counts. -/
theorem crane_count_of_origin_only (g : grid)
    (h : ∀ r c, is_crane g (r, c) = true → r = 0 ∧ c = 0) (s : List step_direction) :
    crane_count g s = (path.init g).total_cranes := by
  unfold crane_count
  rw [visited_eq_cons, List.countP_cons]
  have h0 : List.countP (is_crane g) (visited s).tail = 0 := by
    rw [List.countP_eq_zero]
    intro c hc hcr
    have h1 := visited_tail_pos s c hc
    have h2 := h c.1 c.2 hcr
    omega
  rw [h0]
  simp [path.init, is_crane]

/-! ## Routes by valid steps and the full-length frontier -/

theorem monotonic_route_iff (g : grid) (s : List step_direction) :
    monotonic_route g s ↔ (passable g (0, 0) = true ∧ valid_route g s) := by
  constructor
  · intro h
    exact ⟨origin_passable_of_route g s h, steps_valid_of_route g s h, h.2⟩
  · rintro ⟨ho, hv, he⟩
    refine ⟨?_, he⟩
    intro c hc
    rw [visited_eq_cons] at hc
    rcases List.mem_cons.mp hc with rfl | hc
    · exact ho
    · exact hv c hc

theorem valid_route_length (g : grid) (s : List step_direction) (hr : 0 < g.rows)
    (hc : 0 < g.columns) (h : valid_route g s) : s.length = g.rows + g.columns - 2 := by
  have h1 := end_cell_sum s
  rw [h.2] at h1
  simp at h1
  omega

theorem of_steps_mem_level_valid (g : grid) (FM : List path) (hr : 0 < g.rows)
    (hc : 0 < g.columns) (hlev : is_level g (g.rows + g.columns - 2) FM)
    (s : List step_direction) (h : valid_route g s) : path.of_steps g s ∈ FM :=
  (hlev _).mpr ⟨wf_of_steps g s h.1, valid_route_length g s hr hc h⟩

/-- A path of the full-length frontier is at the destination, its steps are a route by
valid steps and its `total_cranes` is their crane count. -/
theorem valid_route_of_mem_level (g : grid) (FM : List path)
    (hpos : 0 < g.rows + g.columns - 2)
    (hlev : is_level g (g.rows + g.columns - 2) FM) (p : path) (hp : p ∈ FM) :
    (p.final_row = g.rows - 1 ∧ p.final_column = g.columns - 1) ∧
      valid_route g p.steps ∧ crane_count g p.steps = p.total_cranes := by
  obtain ⟨hw, hl⟩ := (hlev p).mp hp
  have hd := at_destination_of_full g p hw hpos hl
  simp only [path.at_destination, decide_eq_true_eq] at hd
  have h1 := hw.1
  have hrow : p.final_row = (end_cell p.steps).1 := by
    conv_lhs => rw [h1]
    rfl
  have hcol : p.final_column = (end_cell p.steps).2 := by
    conv_lhs => rw [h1]
    rfl
  have htot : p.total_cranes = crane_count g p.steps := by
    conv_lhs => rw [h1]
    rfl
  refine ⟨⟨by omega, by omega⟩, ⟨hw.2, ?_⟩, htot.symm⟩
  apply Prod.ext
  · simp only; omega
  · simp only; omega

/-! ## Facts on the concrete grids -/

theorem building_free_scenario2 : building_free grid_scenario2 := by
  intro r c hr hc
  have hr2 : r < 2 := hr
  have hc2 : c < 2 := hc
  interval_cases r <;> interval_cases c <;> decide

theorem no_valid_route_wall3 : ∀ s, ¬ valid_route grid_wall3 s := by
  intro s hs
  have hl : s.length = 4 := valid_route_length grid_wall3 s (by decide) (by decide) hs
  match s, hl, hs with
  | [a, b, c, d], _, hs =>
    revert hs
    cases a <;> cases b <;> cases c <;> cases d <;> decide

theorem all_crane_cranes2 :
    ∀ r c, r < grid_cranes2.rows → c < grid_cranes2.columns →
      grid_cranes2.cells r c = CELL_CRANE := by
  intro r c hr hc
  have hr2 : r < 2 := hr
  have hc2 : c < 2 := hc
  interval_cases r <;> interval_cases c <;> decide

theorem all_open_open2 :
    ∀ r c, r < grid_open2.rows → c < grid_open2.columns →
      grid_open2.cells r c = CELL_OPEN := by
  intro r c hr hc
  have hr2 : r < 2 := hr
  have hc2 : c < 2 := hc
  interval_cases r <;> interval_cases c <;> decide

/-! ## The claims -/

/-- C1. Agreement fails on the 2x3 grid `OPEN BUILDING CRANE / OPEN OPEN CRANE`: the
exhaustive solver returns a path with `total_cranes = 1`, the dynamic-programming
solver a path with `total_cranes = 0`. -/
theorem agreement_fails_on_detour :
    ∃ p q, crane_unloading_exhaustive grid_detour = some p ∧
      crane_unloading_dyn_prog grid_detour = some q ∧
      p.total_cranes = 1 ∧ q.total_cranes = 0 :=
  ⟨⟨[STEP_DIRECTION_SOUTH, STEP_DIRECTION_EAST, STEP_DIRECTION_EAST], 1, 2, 1⟩,
    ⟨[STEP_DIRECTION_SOUTH], 1, 0, 0⟩, by decide, by decide, rfl, rfl⟩

/-- C2. Exhaustive score optimality: on a grid with rows >= 1, columns >= 1 and
rows + columns - 2 < 64 that has at least one monotonic route from (0,0) to
(rows-1, columns-1) avoiding every building, `crane_unloading_exhaustive` returns a
path whose `total_cranes` is the maximum crane count over all such routes: it is the
crane count of one of them and no route has more. -/
theorem exhaustive_score_optimal (g : grid) (hr : g.rows ≥ 1) (hc : g.columns ≥ 1)
    (hb : g.rows + g.columns - 2 < 64) (hex : ∃ s, monotonic_route g s) :
    ∃ p, crane_unloading_exhaustive g = some p ∧
      (∃ s, monotonic_route g s ∧ crane_count g s = p.total_cranes) ∧
      ∀ s, monotonic_route g s → crane_count g s ≤ p.total_cranes := by
  obtain ⟨s0, hs0⟩ := hex
  by_cases hpos : 0 < g.rows + g.columns - 2
  · obtain ⟨b, FM, hlev, hret, hmem, _, hmax⟩ := exhaustive_spec g hr hc hb hpos
    have hle : ∀ s, monotonic_route g s → crane_count g s ≤ b.total_cranes := fun s hs =>
      hmax _ (of_steps_mem_level g FM hr hc hlev s hs)
    refine ⟨b, hret, ?_, hle⟩
    rcases hmem with hb0 | hbm
    · refine ⟨s0, hs0, le_antisymm (hle s0 hs0) ?_⟩
      rw [hb0]
      exact origin_count_le g s0
    · exact ⟨b.steps, route_of_mem_level g FM hpos hlev b hbm (origin_passable_of_route g s0 hs0)⟩
  · have hnil : ∀ s, monotonic_route g s → s = [] := fun s hs =>
      List.length_eq_zero.mp (by rw [route_length g s hr hc hs]; omega)
    have hcount : crane_count g [] = (path.init g).total_cranes := by
      rw [init_eq_of_steps]; rfl
    refine ⟨path.init g, exhaustive_single g hr hc (by omega), ⟨s0, hs0, ?_⟩, ?_⟩
    · rw [hnil s0 hs0]; exact hcount
    · intro s hs
      rw [hnil s hs, hcount]

/-- Witness of C2 on the 2x2 grid `OPEN CRANE / CRANE OPEN`. -/
theorem exhaustive_score_optimal_witness :
    (grid_scenario2.rows ≥ 1 ∧ grid_scenario2.columns ≥ 1 ∧
      grid_scenario2.rows + grid_scenario2.columns - 2 < 64 ∧
      ∃ s, monotonic_route grid_scenario2 s) ∧
    ∃ p, crane_unloading_exhaustive grid_scenario2 = some p ∧
      (∃ s, monotonic_route grid_scenario2 s ∧ crane_count grid_scenario2 s = p.total_cranes) ∧
      ∀ s, monotonic_route grid_scenario2 s → crane_count grid_scenario2 s ≤ p.total_cranes :=
  ⟨⟨by decide, by decide, by decide, ⟨[STEP_DIRECTION_EAST, STEP_DIRECTION_SOUTH], by decide⟩⟩,
    exhaustive_score_optimal grid_scenario2 (by decide) (by decide) (by decide)
      ⟨[STEP_DIRECTION_EAST, STEP_DIRECTION_SOUTH], by decide⟩⟩

/-- C3. The dynamic-programming solver misses the optimum on the 2x3 grid
`OPEN BUILDING CRANE / OPEN OPEN CRANE`: SOUTH, EAST, EAST is a monotonic route to the
destination with crane count 1, and the solver returns a path with
`total_cranes = 0`. -/
theorem dyn_prog_not_optimal_on_detour :
    monotonic_route grid_detour [STEP_DIRECTION_SOUTH, STEP_DIRECTION_EAST, STEP_DIRECTION_EAST] ∧
    crane_count grid_detour [STEP_DIRECTION_SOUTH, STEP_DIRECTION_EAST, STEP_DIRECTION_EAST] = 1 ∧
    (crane_unloading_dyn_prog grid_detour).map path.total_cranes = some 0 := by
  decide

/-- C4. The exhaustive solver does not reach the destination of the 2x2 grid of open
cells, although EAST, SOUTH is a monotonic route to it: it returns the empty path
at (0,0), where the dynamic-programming solver returns EAST, SOUTH, ending at
(1,1). -/
theorem exhaustive_stays_at_origin_on_open2 :
    monotonic_route grid_open2 [STEP_DIRECTION_EAST, STEP_DIRECTION_SOUTH] ∧
    crane_unloading_exhaustive grid_open2 = some ⟨[], 0, 0, 0⟩ ∧
    crane_unloading_dyn_prog grid_open2 =
      some ⟨[STEP_DIRECTION_EAST, STEP_DIRECTION_SOUTH], 1, 1, 0⟩ := by
  decide

/-- C5. The dynamic-programming solver does not reach the destination (1,2) of the
2x3 grid `OPEN BUILDING CRANE / OPEN OPEN CRANE`, although SOUTH, EAST, EAST is a
monotonic route to it: the path it returns is the single step SOUTH, ending at
(1,0). -/
theorem dyn_prog_stops_short_on_detour :
    monotonic_route grid_detour [STEP_DIRECTION_SOUTH, STEP_DIRECTION_EAST, STEP_DIRECTION_EAST] ∧
    crane_unloading_dyn_prog grid_detour = some ⟨[STEP_DIRECTION_SOUTH], 1, 0, 0⟩ ∧
    (1, 0) ≠ (grid_detour.rows - 1, grid_detour.columns - 1) := by
  decide

/-- C6. Step validity: on a non-empty grid the dynamic-programming solver returns a
path, and so does the exhaustive solver when rows + columns - 2 < 64 (so `add_step`
was never called on an invalid step); every step of the returned path entered a cell
inside the grid that is not a building, and the path ends where its steps lead. -/
theorem solvers_steps_valid (g : grid) (hr : g.rows ≥ 1) (hc : g.columns ≥ 1) :
    (g.rows + g.columns - 2 < 64 →
      ∃ p, crane_unloading_exhaustive g = some p ∧ steps_valid g p.steps ∧
        (p.final_row, p.final_column) = end_cell p.steps) ∧
    (∃ q, crane_unloading_dyn_prog g = some q ∧ steps_valid g q.steps ∧
        (q.final_row, q.final_column) = end_cell q.steps) := by
  constructor
  · intro hb
    obtain ⟨p, h1, h2⟩ := exhaustive_wf g hr hc hb
    refine ⟨p, h1, h2.2, ?_⟩
    conv_lhs => rw [h2.1]
    rfl
  · obtain ⟨q, h1, h2⟩ := dyn_prog_wf g hr hc
    refine ⟨q, h1, h2.2, ?_⟩
    conv_lhs => rw [h2.1]
    rfl

/-- Witness of C6 on the 3x3 grid whose middle row is all buildings. -/
theorem solvers_steps_valid_witness :
    (grid_wall3.rows ≥ 1 ∧ grid_wall3.columns ≥ 1) ∧
    ((grid_wall3.rows + grid_wall3.columns - 2 < 64 →
      ∃ p, crane_unloading_exhaustive grid_wall3 = some p ∧ steps_valid grid_wall3 p.steps ∧
        (p.final_row, p.final_column) = end_cell p.steps) ∧
    (∃ q, crane_unloading_dyn_prog grid_wall3 = some q ∧ steps_valid grid_wall3 q.steps ∧
        (q.final_row, q.final_column) = end_cell q.steps)) :=
  ⟨⟨by decide, by decide⟩, solvers_steps_valid grid_wall3 (by decide) (by decide)⟩

/-- C7. The two solvers disagree on the 3x3 grid whose row index 1 is all buildings:
no monotonic route reaches the destination, the exhaustive solver returns the empty
path at (0,0) and the dynamic-programming solver returns EAST, EAST, ending at
(0,2). -/
theorem solvers_differ_on_wall3 :
    (∀ s, ¬ monotonic_route grid_wall3 s) ∧
    crane_unloading_exhaustive grid_wall3 = some ⟨[], 0, 0, 0⟩ ∧
    crane_unloading_dyn_prog grid_wall3 =
      some ⟨[STEP_DIRECTION_EAST, STEP_DIRECTION_EAST], 0, 2, 0⟩ := by
  refine ⟨?_, by decide, by decide⟩
  intro s hs
  have hl : s.length = 4 := route_length grid_wall3 s (by decide) (by decide) hs
  match s, hl, hs with
  | [a, b, c, d], _, hs =>
    revert hs
    cases a <;> cases b <;> cases c <;> cases d <;> decide

/-- C8. Precondition failures: `crane_unloading_exhaustive` returns no path exactly
when rows = 0 or columns = 0 or rows + columns - 2 >= 64, and
`crane_unloading_dyn_prog` returns no path exactly when rows = 0 or columns = 0; on
every other grid each of them returns a path. -/
theorem precondition_failures (g : grid) :
    (crane_unloading_exhaustive g = none ↔
      (g.rows = 0 ∨ g.columns = 0 ∨ g.rows + g.columns - 2 ≥ 64)) ∧
    (crane_unloading_dyn_prog g = none ↔ (g.rows = 0 ∨ g.columns = 0)) := by
  constructor
  · constructor
    · intro h
      by_contra hn
      obtain ⟨p, hp, _⟩ := exhaustive_wf g (by omega) (by omega) (by omega)
      rw [h] at hp
      exact Option.noConfusion hp
    · intro h
      unfold crane_unloading_exhaustive
      by_cases h1 : g.rows > 0 ∧ g.columns > 0
      · have h2 : ¬ (g.rows + g.columns - 2 < 64) := by omega
        simp only [h1, and_self, if_true, h2, if_false]
      · simp only [h1, if_false]
  · constructor
    · intro h
      by_contra hn
      obtain ⟨p, hp, _⟩ := dyn_prog_wf g (by omega) (by omega)
      rw [h] at hp
      exact Option.noConfusion hp
    · intro h
      unfold crane_unloading_dyn_prog
      have h1 : ¬ (g.rows > 0 ∧ g.columns > 0) := by omega
      simp only [h1, if_false]

/-- C9. Score correctness: on a non-empty grid the dynamic-programming solver, and
the exhaustive solver when rows + columns - 2 < 64, returns a path whose
`total_cranes` is the number of crane cells among the cells its steps visit, the
origin (0,0) included. -/
theorem solvers_score_correct (g : grid) (hr : g.rows ≥ 1) (hc : g.columns ≥ 1) :
    (g.rows + g.columns - 2 < 64 →
      ∃ p, crane_unloading_exhaustive g = some p ∧
        p.total_cranes = (visited p.steps).countP (is_crane g)) ∧
    (∃ q, crane_unloading_dyn_prog g = some q ∧
        q.total_cranes = (visited q.steps).countP (is_crane g)) := by
  constructor
  · intro hb
    obtain ⟨p, h1, h2⟩ := exhaustive_wf g hr hc hb
    refine ⟨p, h1, ?_⟩
    conv_lhs => rw [h2.1]
    rfl
  · obtain ⟨q, h1, h2⟩ := dyn_prog_wf g hr hc
    refine ⟨q, h1, ?_⟩
    conv_lhs => rw [h2.1]
    rfl

/-- Witness of C9 on the 2x2 grid whose origin is a crane. -/
theorem solvers_score_correct_witness :
    (grid_crane_origin.rows ≥ 1 ∧ grid_crane_origin.columns ≥ 1) ∧
    ((grid_crane_origin.rows + grid_crane_origin.columns - 2 < 64 →
      ∃ p, crane_unloading_exhaustive grid_crane_origin = some p ∧
        p.total_cranes = (visited p.steps).countP (is_crane grid_crane_origin)) ∧
    (∃ q, crane_unloading_dyn_prog grid_crane_origin = some q ∧
        q.total_cranes = (visited q.steps).countP (is_crane grid_crane_origin))) :=
  ⟨⟨by decide, by decide⟩, solvers_score_correct grid_crane_origin (by decide) (by decide)⟩

/-- C10 as stated fails: on the 2x2 grid `OPEN CRANE / CRANE OPEN` the solvers do not
both return a path with `total_cranes = 2`. -/
theorem scenario2_total_is_not_two :
    ¬ ∃ p q, crane_unloading_exhaustive grid_scenario2 = some p ∧
      crane_unloading_dyn_prog grid_scenario2 = some q ∧
      p.total_cranes = 2 ∧ q.total_cranes = 2 := by
  rintro ⟨p, q, hp, _, h2, _⟩
  have he : crane_unloading_exhaustive grid_scenario2 =
      some ⟨[STEP_DIRECTION_EAST, STEP_DIRECTION_SOUTH], 1, 1, 1⟩ := by decide
  rw [he] at hp
  cases hp
  simp at h2

/-- C10 amended. On the 2x2 grid `OPEN CRANE / CRANE OPEN` each solver returns the
path EAST, SOUTH ending at (1,1) with `total_cranes = 1`; it visits exactly one of
the two crane cells, and every monotonic route to the destination has crane
count 1, so none visits both. -/
theorem scenario2_result :
    crane_unloading_exhaustive grid_scenario2 =
      some ⟨[STEP_DIRECTION_EAST, STEP_DIRECTION_SOUTH], 1, 1, 1⟩ ∧
    crane_unloading_dyn_prog grid_scenario2 =
      some ⟨[STEP_DIRECTION_EAST, STEP_DIRECTION_SOUTH], 1, 1, 1⟩ ∧
    (visited [STEP_DIRECTION_EAST, STEP_DIRECTION_SOUTH]).filter (is_crane grid_scenario2)
      = [(0, 1)] ∧
    ∀ s, monotonic_route grid_scenario2 s → crane_count grid_scenario2 s = 1 := by
  refine ⟨by decide, by decide, by decide, ?_⟩
  intro s hs
  have hl : s.length = 2 := route_length grid_scenario2 s (by decide) (by decide) hs
  match s, hl, hs with
  | [a, b], _, hs =>
    revert hs
    cases a <;> cases b <;> decide

/-- C11. All-crane grids: on a grid with rows >= 1 and columns >= 1 whose cells are all
cranes, the dynamic-programming solver, and the exhaustive solver when
rows + columns - 2 < 64, returns a path with `total_cranes = rows + columns - 1`. -/
theorem all_crane_total (g : grid) (hr : g.rows ≥ 1) (hc : g.columns ≥ 1)
    (hall : ∀ r c, r < g.rows → c < g.columns → g.cells r c = CELL_CRANE) :
    (g.rows + g.columns - 2 < 64 →
      ∃ p, crane_unloading_exhaustive g = some p ∧
        p.total_cranes = g.rows + g.columns - 1) ∧
    (∃ q, crane_unloading_dyn_prog g = some q ∧ q.total_cranes = g.rows + g.columns - 1) := by
  have hbf := building_free_of_crane g hall
  have hcount : ∀ s, monotonic_route g s → crane_count g s = g.rows + g.columns - 1 := by
    intro s hs
    rw [crane_count_all_crane g hall s hs.1, route_length g s hr hc hs]
    omega
  constructor
  · intro hb
    by_cases hpos : 0 < g.rows + g.columns - 2
    · obtain ⟨b, FM, hlev, hret, hmem, _, hmax⟩ := exhaustive_spec g hr hc hb hpos
      have hw := route_of_building_free g hr hc hbf
      have h1 := hmax _ (of_steps_mem_level g FM hr hc hlev _ hw)
      have h2 : (path.of_steps g (List.replicate (g.columns - 1) STEP_DIRECTION_EAST ++
          List.replicate (g.rows - 1) STEP_DIRECTION_SOUTH)).total_cranes
          = g.rows + g.columns - 1 := hcount _ hw
      refine ⟨b, hret, ?_⟩
      rcases hmem with h3 | h3
      · exfalso
        have h4 : (path.init g).total_cranes ≤ 1 := by
          simp only [path.init]
          split_ifs <;> omega
        rw [h3] at h1
        omega
      · obtain ⟨h5, h6⟩ := route_of_mem_level g FM hpos hlev b h3
          (origin_passable g hr hc (hbf 0 0 hr hc))
        rw [← h6]
        exact hcount _ h5
    · refine ⟨path.init g, exhaustive_single g hr hc (by omega), ?_⟩
      have h0 : g.get 0 0 = some CELL_CRANE := by
        simp only [grid.get]
        rw [if_pos ⟨hr, hc⟩, hall 0 0 hr hc]
      simp only [path.init, h0, if_true]
      omega
  · obtain ⟨w, h1, h2, _⟩ := dyn_prog_building_free g hr hc hbf
    exact ⟨_, h1, hcount w h2⟩

/-- Witness of C11 on the 2x2 grid of cranes: both solvers return 3 cranes. -/
theorem all_crane_total_witness :
    (grid_cranes2.rows ≥ 1 ∧ grid_cranes2.columns ≥ 1 ∧
      (∀ r c, r < grid_cranes2.rows → c < grid_cranes2.columns →
        grid_cranes2.cells r c = CELL_CRANE) ∧
      grid_cranes2.rows + grid_cranes2.columns - 2 < 64) ∧
    (∃ p, crane_unloading_exhaustive grid_cranes2 = some p ∧ p.total_cranes = 2 + 2 - 1) ∧
    (∃ q, crane_unloading_dyn_prog grid_cranes2 = some q ∧ q.total_cranes = 2 + 2 - 1) :=
  ⟨⟨by decide, by decide, all_crane_cranes2, by decide⟩,
    (all_crane_total grid_cranes2 (by decide) (by decide) all_crane_cranes2).1 (by decide),
    (all_crane_total grid_cranes2 (by decide) (by decide) all_crane_cranes2).2⟩

/-- C12. Single-cell grids: on every 1x1 grid both solvers return the path with 0 steps
at (0,0); when the single cell is open its `total_cranes` is 0. -/
theorem single_cell_result (g : grid) (hr : g.rows = 1) (hc : g.columns = 1) :
    (∃ p, crane_unloading_exhaustive g = some p ∧
      p.steps = [] ∧ p.final_row = 0 ∧ p.final_column = 0 ∧
      (g.cells 0 0 = CELL_OPEN → p.total_cranes = 0)) ∧
    (∃ q, crane_unloading_dyn_prog g = some q ∧
      q.steps = [] ∧ q.final_row = 0 ∧ q.final_column = 0 ∧
      (g.cells 0 0 = CELL_OPEN → q.total_cranes = 0)) := by
  have hopen : g.cells 0 0 = CELL_OPEN → (path.init g).total_cranes = 0 := by
    intro h
    simp [path.init, grid.get, hr, hc, h]
  constructor
  · exact ⟨path.init g, exhaustive_single g (by omega) (by omega) (by omega), rfl, rfl, rfl,
      hopen⟩
  · refine ⟨path.init g, ?_, rfl, rfl, rfl, hopen⟩
    have h : backtrace (dp_table g) (g.rows + g.columns - 2) (g.rows : Int) (g.columns : Int) []
        = some [] := by
      have : g.rows + g.columns - 2 = 0 := by omega
      rw [this]
      rfl
    rw [dyn_prog_eq g (by omega) (by omega) [] h]
    rfl

/-- Witness of C12 on the 1x1 grid of one open cell. -/
theorem single_cell_result_witness :
    (grid_single_open.rows = 1 ∧ grid_single_open.columns = 1) ∧
    ((∃ p, crane_unloading_exhaustive grid_single_open = some p ∧
      p.steps = [] ∧ p.final_row = 0 ∧ p.final_column = 0 ∧
      (grid_single_open.cells 0 0 = CELL_OPEN → p.total_cranes = 0)) ∧
    (∃ q, crane_unloading_dyn_prog grid_single_open = some q ∧
      q.steps = [] ∧ q.final_row = 0 ∧ q.final_column = 0 ∧
      (grid_single_open.cells 0 0 = CELL_OPEN → q.total_cranes = 0))) :=
  ⟨⟨by decide, by decide⟩, single_cell_result grid_single_open (by decide) (by decide)⟩

/-- C13 as stated fails: on the 1x1 grid of one open cell the fill leaves
`T[1][1] = 1`, which is not -1, while the only monotonic route to the destination is
the empty one and its crane count is 0. -/
theorem table_value_is_not_optimum :
    (fill_table grid_single_open).bind (fun T => T 1 1) = some 1 ∧
    monotonic_route grid_single_open [] ∧
    ∀ s, monotonic_route grid_single_open s → crane_count grid_single_open s = 0 := by
  refine ⟨by decide, by decide, ?_⟩
  intro s hs
  have hl : s.length = 0 := route_length grid_single_open s (by decide) (by decide) hs
  rw [List.length_eq_zero.mp hl]
  decide

/-- C13 amended. On every grid with rows >= 1 and columns >= 1 the fill leaves in
`T[rows][columns]` a value that is at least 1 plus the crane count of every monotonic
route to the destination; on a grid without buildings it is exactly 1 plus the
maximum crane count over these routes. -/
theorem table_value_spec (g : grid) (hr : g.rows ≥ 1) (hc : g.columns ≥ 1) :
    ∃ v, (fill_table g).bind (fun T => T g.rows g.columns) = some v ∧
      (∀ s, monotonic_route g s → (crane_count g s : Int) + 1 ≤ v) ∧
      (building_free g → ∃ s, monotonic_route g s ∧ (crane_count g s : Int) + 1 = v) := by
  refine ⟨dp g g.rows g.columns, ?_, ?_, ?_⟩
  · rw [fill_table_eq, Option.some_bind, filled_final, if_pos ⟨le_refl _, le_refl _⟩]
  · intro s hs
    have h := dp_lower g s hs.1
    rw [hs.2] at h
    have h1 : g.rows - 1 + 1 = g.rows := by omega
    have h2 : g.columns - 1 + 1 = g.columns := by omega
    simpa [h1, h2] using h
  · intro hbf
    obtain ⟨w, _, h2, h3⟩ := dyn_prog_building_free g hr hc hbf
    exact ⟨w, h2, h3⟩

/-- Witness of C13 amended on the 2x2 grid `OPEN CRANE / CRANE OPEN`, which has no
building. -/
theorem table_value_spec_witness :
    (grid_scenario2.rows ≥ 1 ∧ grid_scenario2.columns ≥ 1 ∧ building_free grid_scenario2) ∧
    ∃ v, (fill_table grid_scenario2).bind (fun T => T 2 2) = some v ∧
      (∀ s, monotonic_route grid_scenario2 s → (crane_count grid_scenario2 s : Int) + 1 ≤ v) ∧
      ∃ s, monotonic_route grid_scenario2 s ∧ (crane_count grid_scenario2 s : Int) + 1 = v := by
  obtain ⟨v, h1, h2, h3⟩ := table_value_spec grid_scenario2 (by decide) (by decide)
  exact ⟨⟨by decide, by decide, building_free_scenario2⟩, v, h1, h2,
    h3 building_free_scenario2⟩

/-- C14. Exhaustive default on unreachable destination: on a grid with rows >= 1,
columns >= 1 and rows + columns - 2 < 64 in which no monotonic path of valid steps
(steps that stay inside the grid and enter no building) leads from (0,0) to
(rows-1, columns-1), the exhaustive solver returns its initial `best`, the empty
path: 0 steps, at (0,0). -/
theorem exhaustive_default_on_unreachable (g : grid) (hr : g.rows ≥ 1) (hc : g.columns ≥ 1)
    (hb : g.rows + g.columns - 2 < 64) (hno : ∀ s, ¬ valid_route g s) :
    ∃ p, crane_unloading_exhaustive g = some p ∧ p = path.init g ∧
      p.steps = [] ∧ p.final_row = 0 ∧ p.final_column = 0 := by
  by_cases hpos : 0 < g.rows + g.columns - 2
  · obtain ⟨b, FM, hlev, hret, hmem, _, _⟩ := exhaustive_spec g hr hc hb hpos
    rcases hmem with h | h
    · subst h
      exact ⟨path.init g, hret, rfl, rfl, rfl, rfl⟩
    · exact absurd (valid_route_of_mem_level g FM hpos hlev b h).2.1 (hno _)
  · exact ⟨path.init g, exhaustive_single g hr hc (by omega), rfl, rfl, rfl, rfl⟩

/-- Witness of C14 on the 3x3 grid whose middle row is all buildings. -/
theorem exhaustive_default_on_unreachable_witness :
    (grid_wall3.rows ≥ 1 ∧ grid_wall3.columns ≥ 1 ∧
      grid_wall3.rows + grid_wall3.columns - 2 < 64 ∧ ∀ s, ¬ valid_route grid_wall3 s) ∧
    ∃ p, crane_unloading_exhaustive grid_wall3 = some p ∧ p = path.init grid_wall3 ∧
      p.steps = [] ∧ p.final_row = 0 ∧ p.final_column = 0 :=
  ⟨⟨by decide, by decide, by decide, no_valid_route_wall3⟩,
    exhaustive_default_on_unreachable grid_wall3 (by decide) (by decide) (by decide)
      no_valid_route_wall3⟩

/-- C15. Frontier bound: on a grid with rows >= 1, columns >= 1 and
rows + columns - 2 < 64, the frontier `all_paths` of `crane_unloading_exhaustive`
holds at most binomial(rows + columns - 2, rows - 1) paths at the start of every
iteration of the main loop and when the loop is left; the first frontier is the
empty path alone. -/
theorem frontier_bound (g : grid) (hr : g.rows ≥ 1) (hc : g.columns ≥ 1)
    (_ : g.rows + g.columns - 2 < 64) :
    [path.init g] ∈ frontiers g (g.rows + g.columns - 2 + 1) (path.init g) [path.init g] ∧
    ∀ F ∈ frontiers g (g.rows + g.columns - 2 + 1) (path.init g) [path.init g],
      F.length ≤ Nat.choose (g.rows + g.columns - 2) (g.rows - 1) := by
  constructor
  · rw [frontiers]
    split_ifs
    · exact List.mem_singleton.mpr rfl
    · split <;> simp
  · apply frontiers_length_le
    intro k
    rw [weight_cons, weight_nil]
    have h := box_words_le_choose k (g.rows - 1) (g.columns - 1)
    have he : g.rows - 1 + (g.columns - 1) = g.rows + g.columns - 2 := by omega
    rw [he] at h
    simpa [continuations, path.init] using h

/-- Witness of C15 on the 3x3 grid whose middle row is all buildings. -/
theorem frontier_bound_witness :
    (grid_wall3.rows ≥ 1 ∧ grid_wall3.columns ≥ 1 ∧
      grid_wall3.rows + grid_wall3.columns - 2 < 64) ∧
    ([path.init grid_wall3] ∈ frontiers grid_wall3 (grid_wall3.rows + grid_wall3.columns - 2 + 1)
        (path.init grid_wall3) [path.init grid_wall3] ∧
    ∀ F ∈ frontiers grid_wall3 (grid_wall3.rows + grid_wall3.columns - 2 + 1)
        (path.init grid_wall3) [path.init grid_wall3],
      F.length ≤ Nat.choose (grid_wall3.rows + grid_wall3.columns - 2) (grid_wall3.rows - 1)) :=
  ⟨⟨by decide, by decide, by decide⟩,
    frontier_bound grid_wall3 (by decide) (by decide) (by decide)⟩

/-- C16. The sentinel does not mark every unreachable cell: on the 3x3 grid whose row
index 1 is all buildings the fill leaves `T[3][1] = 0`, not -1, although no
monotonic route from (0,0) to the cell (2,0) avoids every building. -/
theorem sentinel_misses_unreachable_cell :
    (fill_table grid_wall3).bind (fun T => T 3 1) = some 0 ∧
    ∀ s, end_cell s = (2, 0) → ¬ ∀ c ∈ visited s, passable grid_wall3 c = true := by
  refine ⟨by decide, ?_⟩
  intro s hs
  have hl : s.length = 2 := by
    have := end_cell_sum s
    rw [hs] at this
    omega
  match s, hl, hs with
  | [a, b], _, hs =>
    revert hs
    cases a <;> cases b <;> decide

/-- C17 as stated fails: on the 3x3 grid
`OPEN OPEN OPEN / OPEN OPEN BUILDING / OPEN BUILDING OPEN` the backtrace starts at
`(x, y) = (3, 3)` with the two predecessor values `T[2][3]` and `T[3][2]` equal (both
-1), and its first iteration records no step: it moves to `(2, 2)`. -/
theorem tie_without_south :
    (fill_table grid_corner).bind (fun T => T 2 3) = some (-1) ∧
    (fill_table grid_corner).bind (fun T => T 3 2) = some (-1) ∧
    (fill_table grid_corner).bind (fun T => backtrace T 1 3 3 []) = some [] ∧
    (fill_table grid_corner).map (fun T => backtrace_states T 2 3 3) = some [(3, 3), (2, 2)] := by
  decide

/-- C17 amended. In the backtrace on a grid with rows >= 1 and columns >= 1, at a state
`(x, y)` with `x ≠ 1` whose two predecessor values `T[x-1][y]` and `T[x][y-1]` are
equal and not -1 and whose own value `T[x][y]` is not -1, the iteration records
SOUTH and moves to `(x-1, y)`; and on a grid of open cells only the solver returns the
path of columns-1 EAST steps followed by rows-1 SOUTH steps. -/
theorem tie_break_south (g : grid) (hr : g.rows ≥ 1) (hc : g.columns ≥ 1) :
    (∃ T, fill_table g = some T ∧
      ∀ (n x y : Nat) (ds : List step_direction), 2 ≤ x → x ≤ g.rows → 1 ≤ y → y ≤ g.columns →
        T (x - 1) y = T x (y - 1) → T (x - 1) y ≠ some (-1) → T x y ≠ some (-1) →
        backtrace T (n + 1) (x : Int) (y : Int) ds =
          backtrace T n ((x : Int) - 1) (y : Int) (STEP_DIRECTION_SOUTH :: ds)) ∧
    ((∀ r c, r < g.rows → c < g.columns → g.cells r c = CELL_OPEN) →
      ∃ q, crane_unloading_dyn_prog g = some q ∧
        q.steps = List.replicate (g.columns - 1) STEP_DIRECTION_EAST ++
          List.replicate (g.rows - 1) STEP_DIRECTION_SOUTH) := by
  constructor
  · refine ⟨dp_table g, fill_table_eq g, ?_⟩
    intro n x y ds hx1 hx2 hy1 hy2 heq hup hhere
    obtain ⟨a, rfl⟩ : ∃ a, x = a + 1 := ⟨x - 1, by omega⟩
    obtain ⟨b, rfl⟩ : ∃ b, y = b + 1 := ⟨y - 1, by omega⟩
    simp only [Nat.add_sub_cancel, dp_table, filled_final] at heq hup hhere
    rw [if_pos ⟨by omega, by omega⟩] at hup hhere
    rw [if_pos ⟨by omega, by omega⟩, if_pos ⟨by omega, by omega⟩] at heq
    simp only [Option.some.injEq, ne_eq] at heq hup hhere
    rw [backtrace_dp_table g n a b ds (by omega) (by omega), if_neg (fun h => hup h.1),
      if_neg hhere, if_pos ⟨by omega, by omega⟩, cast_succ_sub_one]
  · intro hopen
    have hbf := building_free_of_open g hopen
    obtain ⟨a, ha⟩ : ∃ a, g.rows = a + 1 := ⟨g.rows - 1, by omega⟩
    obtain ⟨b, hb⟩ : ∃ b, g.columns = b + 1 := ⟨g.columns - 1, by omega⟩
    have h := backtrace_all_open g hopen (g.rows + g.columns - 2) a b []
      (by omega) (by omega) (by omega)
    rw [List.append_nil, ← ha, ← hb] at h
    have ha1 : a = g.rows - 1 := by omega
    have hb1 : b = g.columns - 1 := by omega
    rw [ha1, hb1] at h
    have hroute := route_of_building_free g hr hc hbf
    refine ⟨path.of_steps g _, ?_, rfl⟩
    rw [dyn_prog_eq g hr hc _ h, init_eq_of_steps]
    have := replay_valid g [] _ (by simpa using steps_valid_of_route g _ hroute)
    simpa using this

/-- Witness of C17 amended on the 2x2 grid of open cells: at the state (2, 2) the two
predecessor values are both 1, the iteration records SOUTH and moves to (1, 2), and the
solver returns EAST, SOUTH. -/
theorem tie_break_south_witness :
    (grid_open2.rows ≥ 1 ∧ grid_open2.columns ≥ 1 ∧
      (∀ r c, r < grid_open2.rows → c < grid_open2.columns →
        grid_open2.cells r c = CELL_OPEN) ∧
      dp_table grid_open2 (2 - 1) 2 = dp_table grid_open2 2 (2 - 1) ∧
      dp_table grid_open2 (2 - 1) 2 ≠ some (-1) ∧ dp_table grid_open2 2 2 ≠ some (-1)) ∧
    backtrace (dp_table grid_open2) (1 + 1) ((2 : Nat) : Int) ((2 : Nat) : Int) [] =
      backtrace (dp_table grid_open2) 1 (((2 : Nat) : Int) - 1) ((2 : Nat) : Int)
        [STEP_DIRECTION_SOUTH] ∧
    ∃ q, crane_unloading_dyn_prog grid_open2 = some q ∧
      q.steps = [STEP_DIRECTION_EAST, STEP_DIRECTION_SOUTH] := by
  obtain ⟨⟨T, hT, h⟩, h2⟩ := tie_break_south grid_open2 (by decide) (by decide)
  have hT1 : T = dp_table grid_open2 := by
    rw [fill_table_eq] at hT
    exact (Option.some.inj hT).symm
  subst hT1
  exact ⟨⟨by decide, by decide, all_open_open2, by decide, by decide, by decide⟩,
    h 1 2 2 [] (by decide) (by decide) (by decide) (by decide) (by decide) (by decide)
      (by decide),
    h2 all_open_open2⟩

/-- C18. On a grid with rows >= 1 and columns >= 1 that has no building, the
dynamic-programming solver returns a path of exactly rows + columns - 2 steps ending
at (rows-1, columns-1); the path is a monotonic route, its `total_cranes` is the crane
count of its cells and the maximum crane count over all monotonic routes to the
destination, and it equals `T[rows][columns] - 1`. -/
theorem dyn_prog_correct_building_free (g : grid) (hr : g.rows ≥ 1) (hc : g.columns ≥ 1)
    (hbf : building_free g) :
    ∃ q v, crane_unloading_dyn_prog g = some q ∧
      q.steps.length = g.rows + g.columns - 2 ∧
      q.final_row = g.rows - 1 ∧ q.final_column = g.columns - 1 ∧
      monotonic_route g q.steps ∧ q.total_cranes = crane_count g q.steps ∧
      (∀ s, monotonic_route g s → crane_count g s ≤ q.total_cranes) ∧
      (fill_table g).bind (fun T => T g.rows g.columns) = some v ∧
      (q.total_cranes : Int) = v - 1 := by
  obtain ⟨w, h1, h2, h3⟩ := dyn_prog_building_free g hr hc hbf
  refine ⟨path.of_steps g w, dp g g.rows g.columns, h1, route_length g w hr hc h2, ?_, ?_, h2,
    rfl, ?_, ?_, ?_⟩
  · show (end_cell w).1 = g.rows - 1
    rw [h2.2]
  · show (end_cell w).2 = g.columns - 1
    rw [h2.2]
  · intro s hs
    have h := dp_lower g s hs.1
    rw [hs.2] at h
    have e1 : g.rows - 1 + 1 = g.rows := by omega
    have e2 : g.columns - 1 + 1 = g.columns := by omega
    simp only [e1, e2] at h
    show crane_count g s ≤ crane_count g w
    omega
  · rw [fill_table_eq, Option.some_bind, filled_final, if_pos ⟨le_refl _, le_refl _⟩]
  · show (crane_count g w : Int) = dp g g.rows g.columns - 1
    omega

/-- Witness of C18 on the 2x2 grid `OPEN CRANE / CRANE OPEN`. -/
theorem dyn_prog_correct_building_free_witness :
    (grid_scenario2.rows ≥ 1 ∧ grid_scenario2.columns ≥ 1 ∧ building_free grid_scenario2) ∧
    ∃ q v, crane_unloading_dyn_prog grid_scenario2 = some q ∧
      q.steps.length = grid_scenario2.rows + grid_scenario2.columns - 2 ∧
      q.final_row = grid_scenario2.rows - 1 ∧ q.final_column = grid_scenario2.columns - 1 ∧
      monotonic_route grid_scenario2 q.steps ∧
      q.total_cranes = crane_count grid_scenario2 q.steps ∧
      (∀ s, monotonic_route grid_scenario2 s → crane_count grid_scenario2 s ≤ q.total_cranes) ∧
      (fill_table grid_scenario2).bind
        (fun T => T grid_scenario2.rows grid_scenario2.columns) = some v ∧
      (q.total_cranes : Int) = v - 1 :=
  ⟨⟨by decide, by decide, building_free_scenario2⟩,
    dyn_prog_correct_building_free grid_scenario2 (by decide) (by decide)
      building_free_scenario2⟩

/-- C19. Exhaustive keeps its empty default unless strictly beaten: on a grid with
rows >= 1, columns >= 1 and rows + columns - 2 < 64, other than the 1x1 grid, the
exhaustive solver returns a path ending at (rows-1, columns-1) if and only if some
monotonic path of valid steps to the destination has a crane count strictly greater
than the `total_cranes` of the empty path; otherwise, and in particular when no cell
other than the origin is a crane, it returns the empty path at (0,0). -/
theorem exhaustive_default_unless_beaten (g : grid) (hr : g.rows ≥ 1) (hc : g.columns ≥ 1)
    (hb : g.rows + g.columns - 2 < 64) (hne : ¬ (g.rows = 1 ∧ g.columns = 1)) :
    ∃ p, crane_unloading_exhaustive g = some p ∧
      ((p.final_row = g.rows - 1 ∧ p.final_column = g.columns - 1) ↔
        ∃ s, valid_route g s ∧ (path.init g).total_cranes < crane_count g s) ∧
      ((¬ ∃ s, valid_route g s ∧ (path.init g).total_cranes < crane_count g s) →
        p = path.init g ∧ p.steps = [] ∧ p.final_row = 0 ∧ p.final_column = 0) ∧
      ((∀ r c, is_crane g (r, c) = true → r = 0 ∧ c = 0) →
        p = path.init g ∧ p.steps = [] ∧ p.final_row = 0 ∧ p.final_column = 0) := by
  have hpos : 0 < g.rows + g.columns - 2 := by omega
  obtain ⟨b, FM, hlev, hret, hmem, _, hmax⟩ := exhaustive_spec g hr hc hb hpos
  have hstrict := exhaustive_best g b hret
  have hiff : (b.final_row = g.rows - 1 ∧ b.final_column = g.columns - 1) ↔
      ∃ s, valid_route g s ∧ (path.init g).total_cranes < crane_count g s := by
    constructor
    · intro hd
      have hbi : b ≠ path.init g := by
        intro h
        rw [h] at hd
        simp only [path.init] at hd
        omega
      rcases hmem with h | h
      · exact absurd h hbi
      · obtain ⟨_, h1, h2⟩ := valid_route_of_mem_level g FM hpos hlev b h
        rcases hstrict with h3 | h3
        · exact absurd h3 hbi
        · exact ⟨b.steps, h1, by rw [h2]; exact h3⟩
    · rintro ⟨s, hs, hlt⟩
      have h1 := hmax _ (of_steps_mem_level_valid g FM hr hc hlev s hs)
      have h2 : (path.of_steps g s).total_cranes = crane_count g s := rfl
      rcases hmem with h | h
      · rw [h] at h1
        omega
      · exact (valid_route_of_mem_level g FM hpos hlev b h).1
  have hdefault : (¬ ∃ s, valid_route g s ∧
      (path.init g).total_cranes < crane_count g s) →
      b = path.init g ∧ b.steps = [] ∧ b.final_row = 0 ∧ b.final_column = 0 := by
    intro hn
    rcases hmem with h | h
    · subst h
      exact ⟨rfl, rfl, rfl, rfl⟩
    · exact absurd (hiff.mp (valid_route_of_mem_level g FM hpos hlev b h).1) hn
  refine ⟨b, hret, hiff, hdefault, ?_⟩
  intro honly
  apply hdefault
  rintro ⟨s, _, hlt⟩
  rw [crane_count_of_origin_only g honly s] at hlt
  omega

/-- C20. Index safety of the dynamic-programming solver on a grid with rows >= 1 and
columns >= 1: the fill never reads outside the grid or the table; it writes exactly
the slots `[0..rows] x [0..columns]`, with 0 in row 0 and in column 0; every state
`(x, y)` at the start of an iteration of the backtrace has `1 ≤ x ≤ rows` and
`1 ≤ y ≤ columns`, line 140 fires there only when `x ≥ 2` and `y ≥ 2`, and the
backtrace never reads outside the table. -/
theorem dyn_prog_index_safety (g : grid) (hr : g.rows ≥ 1) (hc : g.columns ≥ 1) :
    ∃ T, fill_table g = some T ∧
      (∀ i j, T i j ≠ none ↔ (i ≤ g.rows ∧ j ≤ g.columns)) ∧
      (∀ j, j ≤ g.columns → T 0 j = some 0) ∧
      (∀ i, i ≤ g.rows → T i 0 = some 0) ∧
      (∀ p ∈ backtrace_states T (g.rows + g.columns - 2) (g.rows : Int) (g.columns : Int),
        1 ≤ p.1 ∧ p.1 ≤ (g.rows : Int) ∧ 1 ≤ p.2 ∧ p.2 ≤ (g.columns : Int) ∧
        T.read (p.1 - 1) p.2 ≠ none ∧ T.read p.1 (p.2 - 1) ≠ none ∧ T.read p.1 p.2 ≠ none ∧
        (both_blocked T p.1 p.2 = some true → 2 ≤ p.1 ∧ 2 ≤ p.2)) ∧
      ∃ ds, backtrace T (g.rows + g.columns - 2) (g.rows : Int) (g.columns : Int) [] = some ds := by
  obtain ⟨a, ha⟩ : ∃ a, g.rows = a + 1 := ⟨g.rows - 1, by omega⟩
  obtain ⟨b, hb⟩ : ∃ b, g.columns = b + 1 := ⟨g.columns - 1, by omega⟩
  refine ⟨dp_table g, fill_table_eq g, ?_, ?_, ?_, ?_, ?_⟩
  · intro i j
    rw [dp_table, filled_final]
    by_cases h : i ≤ g.rows ∧ j ≤ g.columns
    · simp [h]
    · simp [h]
  · intro j hj
    rw [dp_table, filled_final, if_pos ⟨by omega, hj⟩, dp_zero_left]
  · intro i hi
    rw [dp_table, filled_final, if_pos ⟨hi, by omega⟩, dp_zero_right]
  · intro p hp
    have hp2 : p ∈ backtrace_states (dp_table g) (g.rows + g.columns - 2)
        ((a + 1 : Nat) : Int) ((b + 1 : Nat) : Int) := by
      rw [← ha, ← hb]
      exact hp
    obtain ⟨a1, b1, h1, h2, rfl⟩ := backtrace_states_in_range g _ a b (by omega) (by omega) p hp2
    refine ⟨by push_cast; omega, by push_cast; omega, by push_cast; omega, by push_cast; omega,
      ?_, ?_, ?_, ?_⟩
    · simp only [cast_succ_sub_one]
      rw [dp_table_read g a1 (b1 + 1) (by omega) (by omega)]
      simp
    · simp only [cast_succ_sub_one]
      rw [dp_table_read g (a1 + 1) b1 (by omega) (by omega)]
      simp
    · rw [dp_table_read g (a1 + 1) (b1 + 1) (by omega) (by omega)]
      simp
    · intro hbb
      have := both_blocked_bounds g a1 b1 h1 h2 hbb
      push_cast
      omega
  · have := backtrace_total g (g.rows + g.columns - 2) a b [] (by omega) (by omega)
    rw [← ha, ← hb] at this
    exact this

/-- Witness of C19 on the 2x2 grid `OPEN CRANE / CRANE OPEN`. -/
theorem exhaustive_default_unless_beaten_witness :
    (grid_scenario2.rows ≥ 1 ∧ grid_scenario2.columns ≥ 1 ∧
      grid_scenario2.rows + grid_scenario2.columns - 2 < 64 ∧
      ¬ (grid_scenario2.rows = 1 ∧ grid_scenario2.columns = 1)) ∧
    ∃ p, crane_unloading_exhaustive grid_scenario2 = some p ∧
      ((p.final_row = grid_scenario2.rows - 1 ∧ p.final_column = grid_scenario2.columns - 1) ↔
        ∃ s, valid_route grid_scenario2 s ∧
          (path.init grid_scenario2).total_cranes < crane_count grid_scenario2 s) ∧
      ((¬ ∃ s, valid_route grid_scenario2 s ∧
          (path.init grid_scenario2).total_cranes < crane_count grid_scenario2 s) →
        p = path.init grid_scenario2 ∧ p.steps = [] ∧ p.final_row = 0 ∧ p.final_column = 0) ∧
      ((∀ r c, is_crane grid_scenario2 (r, c) = true → r = 0 ∧ c = 0) →
        p = path.init grid_scenario2 ∧ p.steps = [] ∧ p.final_row = 0 ∧ p.final_column = 0) :=
  ⟨⟨by decide, by decide, by decide, by decide⟩,
    exhaustive_default_unless_beaten grid_scenario2 (by decide) (by decide) (by decide)
      (by decide)⟩

/-- Witness of C20 on the 3x3 grid whose middle row is all buildings. -/
theorem dyn_prog_index_safety_witness :
    (grid_wall3.rows ≥ 1 ∧ grid_wall3.columns ≥ 1) ∧
    ∃ T, fill_table grid_wall3 = some T ∧
      (∀ i j, T i j ≠ none ↔ (i ≤ grid_wall3.rows ∧ j ≤ grid_wall3.columns)) ∧
      (∀ j, j ≤ grid_wall3.columns → T 0 j = some 0) ∧
      (∀ i, i ≤ grid_wall3.rows → T i 0 = some 0) ∧
      (∀ p ∈ backtrace_states T (grid_wall3.rows + grid_wall3.columns - 2)
          (grid_wall3.rows : Int) (grid_wall3.columns : Int),
        1 ≤ p.1 ∧ p.1 ≤ (grid_wall3.rows : Int) ∧ 1 ≤ p.2 ∧ p.2 ≤ (grid_wall3.columns : Int) ∧
        T.read (p.1 - 1) p.2 ≠ none ∧ T.read p.1 (p.2 - 1) ≠ none ∧ T.read p.1 p.2 ≠ none ∧
        (both_blocked T p.1 p.2 = some true → 2 ≤ p.1 ∧ 2 ≤ p.2)) ∧
      ∃ ds, backtrace T (grid_wall3.rows + grid_wall3.columns - 2)
        (grid_wall3.rows : Int) (grid_wall3.columns : Int) [] = some ds :=
  ⟨⟨by decide, by decide⟩, dyn_prog_index_safety grid_wall3 (by decide) (by decide)⟩

end cranes
